import Mathlib

set_option maxHeartbeats 1000000
set_option maxRecDepth 100000

/-!
Formal model of the fintracker-v2 time-series reconciliation and financial
analytics engine.

The development shallowly embeds the analytically dense parts of the
repository:

* `src/pensions/staging/create_pensions_staging_tables.py`
  (`PensionsStagingCreator.calculate_performance_timeseries`),
* `src/coinbase/analytics_calculator.py` (`calculate_performance_metrics`,
  `calculate_risk_metrics`, `calculate_allocation_analysis`,
  `calculate_correlation_metrics`),
* `src/coinbase/data_transformer.py` (`create_portfolio_snapshots`).

Machine floats of the source are modelled as exact rationals (or reals where
the source takes square roots), extended with explicit positive/negative
infinity and NaN markers — the `PF` type below — so that the IEEE-style
behaviour of pandas/numpy on division by zero and missing data is captured.
Timestamps are modelled as integers; pandas datetime indexes are linearly
ordered, which is all the source relies on.
-/

/-- Scalar value as stored in a pandas column: a finite value (an exact
rational or real standing for the float), positive infinity, negative
infinity, or the missing-data marker NaN. -/
inductive PF (α : Type) where
  | fin : α → PF α
  | pinf : PF α
  | ninf : PF α
  | nan : PF α
deriving DecidableEq

namespace PF

/-- True exactly on finite values. -/
def isFin {α : Type} : PF α → Bool
  | fin _ => true
  | _ => false

/-- True exactly on the NaN marker. -/
def isNan {α : Type} : PF α → Bool
  | nan => true
  | _ => false

/-- Finite payload of a value, with 0 for the non-finite markers. -/
def val {α : Type} [Zero α] : PF α → α
  | fin q => q
  | _ => 0

/-- Model of the final `replace([inf, -inf], nan).fillna(0)` sanitisation
that `calculate_performance_metrics` and `calculate_risk_metrics` apply to
their whole output frame: infinities become NaN, then every NaN becomes 0. -/
def sanitize {α : Type} [Zero α] : PF α → PF α
  | fin q => fin q
  | _ => fin 0

/-- Multiplication by a positive finite constant (used for the annualisation
factors 252, √252 and the percentage factor 100 of the source). -/
def smulPos {α : Type} [Mul α] (c : α) : PF α → PF α
  | fin q => fin (c * q)
  | pinf => pinf
  | ninf => ninf
  | nan => nan

/-- Subtraction of a finite constant (the per-day risk-free rate). -/
def subC {α : Type} [Sub α] (c : α) : PF α → PF α
  | fin q => fin (q - c)
  | pinf => pinf
  | ninf => ninf
  | nan => nan

/-- Addition of a finite constant (the `1 +` of the compounding step). -/
def addC {α : Type} [Add α] (c : α) : PF α → PF α
  | fin q => fin (c + q)
  | pinf => pinf
  | ninf => ninf
  | nan => nan

/-- Absolute value, IEEE style. -/
def pfAbs {α : Type} [LinearOrder α] [Neg α] : PF α → PF α
  | fin q => fin (max q (-q))
  | pinf => pinf
  | ninf => pinf
  | nan => nan

/-- Embedding of rational-valued column entries into real-valued ones. -/
def toR : PF ℚ → PF ℝ
  | fin q => fin (q : ℝ)
  | pinf => pinf
  | ninf => ninf
  | nan => nan

/-- IEEE-style division on column values: NaN propagates, a finite nonzero
numerator over zero gives a signed infinity, 0/0 gives NaN, a finite
numerator over an infinity gives 0. -/
def div {α : Type} [LinearOrderedField α] [DecidableEq α]
    [DecidableRel (α := α) (· < ·)] : PF α → PF α → PF α
  | fin a, fin b =>
    if b = 0 then (if 0 < a then pinf else if a < 0 then ninf else nan)
    else fin (a / b)
  | fin _, pinf => fin 0
  | fin _, ninf => fin 0
  | pinf, fin b => if 0 ≤ b then pinf else ninf
  | ninf, fin b => if 0 ≤ b then ninf else pinf
  | _, _ => nan

end PF

/-- Division of two rationals with pandas float semantics. -/
def pdDivQ (a b : ℚ) : PF ℚ :=
  if b = 0 then
    (if 0 < a then PF.pinf else if a < 0 then PF.ninf else PF.nan)
  else PF.fin (a / b)

/-- Division of two nullable rationals with pandas float semantics (a missing
operand gives NaN). -/
def pdDivOpt (a b : Option ℚ) : PF ℚ :=
  match a, b with
  | some x, some y => pdDivQ x y
  | _, _ => PF.nan

/-- Rounding of a rational to `d = 2` decimal places with numpy's
round-half-to-even tie rule (`Series.round(2)` of the source; exact on the
rational model). -/
def roundHalfEven (q : ℚ) : ℤ :=
  let f : ℤ := ⌊q⌋
  let r : ℚ := q - f
  if r < 1 / 2 then f
  else if 1 / 2 < r then f + 1
  else if Even f then f else f + 1

/-- Round to two decimal places. -/
def round2 (q : ℚ) : ℚ := (roundHalfEven (q * 100) : ℚ) / 100

/-- Round a column value to two decimal places; infinities and NaN are fixed
points of rounding. -/
def round2PF : PF ℚ → PF ℚ
  | PF.fin q => PF.fin (round2 q)
  | x => x

/-- Left-biased choice on nullable rationals (`Series.fillna` at one cell). -/
def orO (a b : Option ℚ) : Option ℚ :=
  match a with
  | some v => some v
  | none => b

/-- Value of a forward-filled column at the last position of an ordered block
of index entries `ts`: the column value at the latest entry where it is
defined (`Series.ffill` read at one row). -/
def lastDefined (ts : List Int) (col : Int → Option ℚ) : Option ℚ :=
  ts.foldl (fun acc s => orO (col s) acc) none

/-- Last element of a list, if any. -/
def lastP {α : Type} : List α → Option α
  | [] => none
  | [a] => some a
  | _ :: b :: bs => lastP (b :: bs)

/-- Insertion into an ascending list of timestamps. -/
def insertLe (x : Int) : List Int → List Int
  | [] => [x]
  | y :: ys => if x ≤ y then x :: y :: ys else y :: insertLe x ys

/-- Ascending sort of timestamps (`sort_values` / the sorted group keys of a
pandas `groupby`). -/
def sortInts (xs : List Int) : List Int := xs.foldr insertLe []

/-- Removal of adjacent duplicates; on a sorted list this is full
deduplication, giving the distinct keys of a `groupby`. -/
def dedupSorted : List Int → List Int
  | [] => []
  | [x] => [x]
  | x :: y :: ys =>
    if x = y then dedupSorted (y :: ys) else x :: dedupSorted (y :: ys)

/-!
## PensionReconciler
Embedding of `PensionsStagingCreator.calculate_performance_timeseries`
(src/pensions/staging/create_pensions_staging_tables.py, lines 50-146) for a
single platform. A cashflow or snapshot event is a pair (timestamp, value).
Columns of the merged `events_df` are modelled as functions from a timestamp
of the merged timeline to a nullable rational, mirroring pandas Series
indexed by the `groupby("timestamp")` keys.
-/

/-- Insertion into a list of events ascending by timestamp (stable). -/
def insertByTs (x : Int × ℚ) : List (Int × ℚ) → List (Int × ℚ)
  | [] => [x]
  | y :: ys => if x.1 ≤ y.1 then x :: y :: ys else y :: insertByTs x ys

/-- Model of `sort_values("timestamp")` on an event list. -/
def sortByTs (l : List (Int × ℚ)) : List (Int × ℚ) := l.foldr insertByTs []

/-- Running-total helper for the cumulative-sum column. -/
def cumsumAux (acc : ℚ) : List (Int × ℚ) → List (Int × ℚ)
  | [] => []
  | x :: xs => (x.1, acc + x.2) :: cumsumAux (acc + x.2) xs

/-- Step 1 of the reconciler: sort the cashflows by timestamp and replace
each value by the running sum (`platform_cashflows["value"].cumsum()`). -/
def cumsumByTs (l : List (Int × ℚ)) : List (Int × ℚ) := cumsumAux 0 (sortByTs l)

/-- Value of the `cash_invested` column at timestamp `t` after
`groupby("timestamp").last()`: the cumulative sum at the last cashflow row
carrying timestamp `t`, if any. -/
def cashRawAt (cf : List (Int × ℚ)) (t : Int) : Option ℚ :=
  (lastP ((cumsumByTs cf).filter (fun r => decide (r.1 = t)))).map Prod.snd

/-- Value of the `pension_value` column at timestamp `t` after
`groupby("timestamp").last()`: the last snapshot row carrying timestamp `t`,
if any. -/
def obsAt (sn : List (Int × ℚ)) (t : Int) : Option ℚ :=
  (lastP (sn.filter (fun r => decide (r.1 = t)))).map Prod.snd

/-- Merged event timeline: the sorted distinct timestamps of both streams
(the index of `events_df` after the `groupby`). -/
def pensionTimeline (cf sn : List (Int × ℚ)) : List Int :=
  dedupSorted (sortInts (cf.map Prod.fst ++ sn.map Prod.fst))

/-- Nearest earlier timeline timestamp carrying an observed valuation,
together with that valuation (the left interpolation anchor). -/
def prevAnchor (tl : List Int) (obs : Int → Option ℚ) (t : Int) :
    Option (Int × ℚ) :=
  lastP (tl.filterMap (fun s =>
    if s < t then (obs s).map (fun v => (s, v)) else none))

/-- Nearest later timeline timestamp carrying an observed valuation,
together with that valuation (the right interpolation anchor). -/
def nextAnchor (tl : List Int) (obs : Int → Option ℚ) (t : Int) :
    Option (Int × ℚ) :=
  (tl.filterMap (fun s =>
    if t < s then (obs s).map (fun v => (s, v)) else none)).head?

/-- Step 2: `events_df["pension_value"].interpolate(method="time")` read at
timestamp `t` of the timeline. An observed value is kept; between two
anchors the value is linearly interpolated in elapsed time; after the last
anchor the last observed value is carried (np.interp clips on the right);
before the first anchor the hole is preserved (pandas keeps leading NaNs
under the default forward limit direction). -/
def interpAt (tl : List Int) (obs : Int → Option ℚ) (t : Int) : Option ℚ :=
  match obs t with
  | some v => some v
  | none =>
    match prevAnchor tl obs t, nextAnchor tl obs t with
    | some (tb, vb), some (ta, va) =>
      some (vb + (va - vb) * (((t - tb : Int) : ℚ) / ((ta - tb : Int) : ℚ)))
    | some (_, vb), none => some vb
    | _, _ => none

/-- Step 3a: `events_df["cash_invested"].ffill()` read at timestamp `t`. -/
def cashFAt (cf : List (Int × ℚ)) (tl : List Int) (t : Int) : Option ℚ :=
  lastDefined (tl.filter (fun s => decide (s ≤ t))) (cashRawAt cf)

/-- Step 3b: the imputed value after `fillna(cash_invested)` but before the
final forward fill. -/
def imputedPreAt (cf sn : List (Int × ℚ)) (tl : List Int) (t : Int) :
    Option ℚ :=
  orO (interpAt tl (obsAt sn) t) (cashFAt cf tl t)

/-- Step 3c: the final `imputed_pension_value` column, after the trailing
`ffill()`, read at timestamp `t` of the merged timeline. -/
def imputedAt (cf sn : List (Int × ℚ)) (t : Int) : Option ℚ :=
  lastDefined
    ((pensionTimeline cf sn).filter (fun s => decide (s ≤ t)))
    (imputedPreAt cf sn (pensionTimeline cf sn))

/-- One row of the final per-platform staging table (step 5 schema). -/
structure PensionRow where
  ts : Int
  cash : Option ℚ
  pv : Option ℚ
  ipv : Option ℚ
  gla : Option ℚ
  glp : PF ℚ
  igla : Option ℚ
  iglp : PF ℚ
deriving DecidableEq

/-- Step 4/5 metrics for a kept row with forward-filled cash `c` and imputed
value `iv` at timestamp `t`, all numeric columns rounded to 2 dp. -/
def mkPensionRow (sn : List (Int × ℚ)) (t : Int) (c iv : ℚ) : PensionRow :=
  let pv := obsAt sn t
  let gla := pv.map (fun v => v - c)
  { ts := t
    cash := some (round2 c)
    pv := pv.map round2
    ipv := some (round2 iv)
    gla := gla.map round2
    glp := round2PF (PF.smulPos 100 (pdDivOpt gla (some c)))
    igla := some (round2 (iv - c))
    iglp := round2PF (PF.smulPos 100 (pdDivQ (iv - c) c)) }

/-- Final staging table: one row per timeline timestamp, dropping rows where
`cash_invested` or `imputed_pension_value` is still missing
(`dropna(subset=["cash_invested", "imputed_pension_value"])`). -/
def pensionFinal (cf sn : List (Int × ℚ)) : List PensionRow :=
  (pensionTimeline cf sn).filterMap (fun t =>
    match cashFAt cf (pensionTimeline cf sn) t, imputedAt cf sn t with
    | some c, some iv => some (mkPensionRow sn t c iv)
    | _, _ => none)

/-- Example cashflow stream: contributions at t=0, t=3, t=8. -/
def exCf1 : List (Int × ℚ) := [(0, 1000), (3, 0), (8, 100)]

/-- Example valuation stream: snapshots at t=2 and t=6. -/
def exSn1 : List (Int × ℚ) := [(2, 1200), (6, 2000)]

/-!
## PerformanceAnalyzer / RiskAnalyzer
Embedding of `calculate_performance_metrics` (lines 74-157) and
`calculate_risk_metrics` (lines 160-267) of
src/coinbase/analytics_calculator.py. The input frame is the list of
(date, total_portfolio_value) rows; both functions first sort by date and
derive every column from the sorted value series.
-/

/-- Trailing window of width `w` ending at position `i` (the values a pandas
rolling window of size `w` sees at row `i`). -/
def windowEnd {α : Type} (w : Nat) (xs : List α) (i : Nat) : List α :=
  (xs.take (i + 1)).drop (i + 1 - w)

/-- Extraction of the finite payloads of a window; `none` when the window
contains a non-finite entry (pandas counts only non-NaN observations
against `min_periods`, and with `min_periods = window` a single missing
entry disables the whole window). -/
def allFinList : List (PF ℚ) → Option (List ℚ)
  | [] => some []
  | PF.fin q :: xs => (allFinList xs).map (fun l => q :: l)
  | _ => none

/-- Model of `Series.rolling(window=w).apply(f)` (and of the built-in
rolling aggregations, via `f`), with the default `min_periods = w`: rows
with fewer than `w` observations give NaN. -/
def rollingApplyQ (w : Nat) (f : List ℚ → PF ℚ) (xs : List (PF ℚ)) :
    List (PF ℚ) :=
  (List.range xs.length).map (fun i =>
    if i + 1 < w then PF.nan
    else
      match allFinList (windowEnd w xs i) with
      | some vals => f vals
      | none => PF.nan)

/-- Real-valued variant of `rollingApplyQ` for aggregations involving a
square root (standard deviations). -/
def rollingApplyR (w : Nat) (f : List ℚ → ℝ) (xs : List (PF ℚ)) :
    List (PF ℝ) :=
  (List.range xs.length).map (fun i =>
    if i + 1 < w then PF.nan
    else
      match allFinList (windowEnd w xs i) with
      | some vals => PF.fin (f vals)
      | none => PF.nan)

/-- Arithmetic mean (`np.mean` / `Series.mean` over a full window). -/
def meanQ (l : List ℚ) : ℚ := l.sum / (l.length : ℚ)

/-- Sample variance with the pandas default `ddof = 1`. -/
def sampleVarQ (l : List ℚ) : ℚ :=
  ((l.map (fun x => (x - meanQ l) ^ 2)).sum) / ((l.length : ℚ) - 1)

/-- Sample standard deviation (`Series.rolling(...).std()` on one window). -/
noncomputable def stdR (l : List ℚ) : ℝ := Real.sqrt ((sampleVarQ l : ℚ) : ℝ)

/-- Insertion into an ascending list of rationals. -/
def insertQLe (x : ℚ) : List ℚ → List ℚ
  | [] => [x]
  | y :: ys => if x ≤ y then x :: y :: ys else y :: insertQLe x ys

/-- Ascending sort of rationals (the sort inside a percentile computation). -/
def sortQ (xs : List ℚ) : List ℚ := xs.foldr insertQLe []

/-- Linear-interpolation percentile, numpy's default rule for
`np.percentile(xs, q)` and `rolling(...).quantile(q/100)`: with the sorted
values `s` and `h = (n-1)·q/100`, the result is
`s[⌊h⌋] + (h − ⌊h⌋)·(s[⌊h⌋+1] − s[⌊h⌋])`. -/
def quantileLin (q : ℚ) (xs : List ℚ) : ℚ :=
  let s := sortQ xs
  let n := s.length
  if n = 0 then 0
  else
    let pos : ℚ := q / 100 * ((n : ℚ) - 1)
    let lo : ℕ := (⌊pos⌋).toNat
    let frac : ℚ := pos - (lo : ℚ)
    let a := s.getD lo 0
    let b := s.getD (lo + 1) a
    a + frac * (b - a)

/-- The `calculate_cvar` helper of `calculate_risk_metrics` (lines 206-210):
NaN for a window shorter than 30, else the mean of all window returns lying
at or below the window's 5th percentile (NaN for an empty tail, as
`np.mean` of an empty selection). -/
def cvarFunc (l : List ℚ) : PF ℚ :=
  if l.length < 30 then PF.nan
  else if (l.filter (fun r => decide (r ≤ quantileLin 5 l))).length = 0 then
    PF.nan
  else
    PF.fin ((l.filter (fun r => decide (r ≤ quantileLin 5 l))).sum /
      ((l.filter (fun r => decide (r ≤ quantileLin 5 l))).length : ℚ))

/-- The downside-deviation window aggregation of `calculate_risk_metrics`
(line 220): `sqrt(mean(min(x − mean(x), 0)²))`. -/
noncomputable def downsideFunc (l : List ℚ) : ℝ :=
  Real.sqrt
    ((((l.map (fun x => (min (x - meanQ l) 0) ^ 2)).sum /
      (l.length : ℚ) : ℚ) : ℝ))

/-- One step of `Series.pct_change()`: current over previous minus one, with
float semantics on a zero previous value. -/
def pdRet (prev cur : ℚ) : PF ℚ :=
  if prev = 0 then
    (if 0 < cur then PF.pinf else if cur < 0 then PF.ninf else PF.nan)
  else PF.fin (cur / prev - 1)

/-- Tail of `Series.pct_change()` given the previous value. -/
def pctChangeAux (prev : ℚ) : List ℚ → List (PF ℚ)
  | [] => []
  | x :: xs => pdRet prev x :: pctChangeAux x xs

/-- Model of `Series.pct_change()`: the first row is NaN. -/
def pctChange : List ℚ → List (PF ℚ)
  | [] => []
  | x :: xs => PF.nan :: pctChangeAux x xs

/-- Model of `replace([np.inf, -np.inf], 0)` on the daily-return column. -/
def replaceInfZero (xs : List (PF ℚ)) : List (PF ℚ) :=
  xs.map (fun v =>
    match v with
    | PF.pinf => PF.fin 0
    | PF.ninf => PF.fin 0
    | x => x)

/-- Running maximum, continued. -/
def expandingMaxAux (m : ℚ) : List ℚ → List ℚ
  | [] => []
  | x :: xs => max m x :: expandingMaxAux (max m x) xs

/-- Model of `Series.expanding().max()` on an all-finite value column (the portfolio
value series): the running peak. -/
def expandingMax : List ℚ → List ℚ
  | [] => []
  | x :: xs => x :: expandingMaxAux x xs

/-- Minimum of two non-NaN column values, with infinities ordered in the
IEEE way (NaN operands are handled by the caller's skip logic). -/
def pfMin2 : PF ℚ → PF ℚ → PF ℚ
  | PF.ninf, _ => PF.ninf
  | _, PF.ninf => PF.ninf
  | PF.pinf, y => y
  | x, PF.pinf => x
  | PF.fin a, PF.fin b => PF.fin (min a b)
  | PF.nan, y => y
  | x, PF.nan => x

/-- One skipna step of a running minimum: a NaN entry leaves the
accumulator unchanged; while no observation has been seen the accumulator
is NaN. -/
def pfMinSkip (acc x : PF ℚ) : PF ℚ :=
  match x with
  | PF.nan => acc
  | _ =>
    match acc with
    | PF.nan => x
    | _ => pfMin2 acc x

/-- Running minimum, continued. -/
def expandingMinAux (acc : PF ℚ) : List (PF ℚ) → List (PF ℚ)
  | [] => []
  | x :: xs => pfMinSkip acc x :: expandingMinAux (pfMinSkip acc x) xs

/-- Model of `Series.expanding().min()` with the pandas default `skipna=True`. -/
def expandingMinPF (xs : List (PF ℚ)) : List (PF ℚ) :=
  expandingMinAux PF.nan xs

/-- Running product, continued (`Series.cumprod()` with the pandas default
skipna: a missing entry yields a missing output row but does not reset the
accumulated product; the inputs here are finite-or-NaN). -/
def cumprodAux (acc : ℚ) : List (PF ℚ) → List (PF ℚ)
  | [] => []
  | PF.fin x :: xs => PF.fin (acc * x) :: cumprodAux (acc * x) xs
  | _ :: xs => PF.nan :: cumprodAux acc xs

/-- Model of `Series.cumprod()`. -/
def cumprodSkip (xs : List (PF ℚ)) : List (PF ℚ) := cumprodAux 1 xs

/-- Model of `replace([inf,-inf], nan).fillna(0)` on a whole column. -/
def sanitizeCol {α : Type} [Zero α] (xs : List (PF α)) : List (PF α) :=
  xs.map PF.sanitize

-- ### The performance-metrics pipeline (lines 84-153 of the source)

/-- Daily return: sort by date, `pct_change()` on the value column,
`replace([inf, -inf], 0)` (line 90-94). -/
def perfDailyReturn (rows : List (Int × ℚ)) : List (PF ℚ) :=
  replaceInfZero (pctChange ((sortByTs rows).map Prod.snd))

/-- Cumulative return: `(1 + daily_return).cumprod() - 1` (line 95-97). -/
def perfCumulativeReturn (rows : List (Int × ℚ)) : List (PF ℚ) :=
  (cumprodSkip ((perfDailyReturn rows).map (PF.addC 1))).map (PF.subC 1)

/-- Rolling 30-sample volatility annualised by √252 (lines 100-102). -/
noncomputable def perfVolatility (rows : List (Int × ℚ)) : List (PF ℝ) :=
  (rollingApplyR 30 stdR (perfDailyReturn rows)).map
    (PF.smulPos (Real.sqrt 252))

/-- Excess return over the 2% annual risk-free rate (lines 105-108). -/
def perfExcessReturn (rows : List (Int × ℚ)) : List (PF ℚ) :=
  (perfDailyReturn rows).map (PF.subC (1 / 50 / 252))

/-- Rolling Sharpe ratio (lines 109-113). -/
noncomputable def perfSharpe (rows : List (Int × ℚ)) : List (PF ℝ) :=
  List.zipWith PF.div
    ((rollingApplyQ 252 (fun l => PF.fin (meanQ l))
        (perfExcessReturn rows)).map (fun p => (PF.smulPos 252 p).toR))
    ((rollingApplyR 252 stdR (perfDailyReturn rows)).map
      (PF.smulPos (Real.sqrt 252)))

/-- Running peak of the value series (lines 116-118). -/
def perfPeak (rows : List (Int × ℚ)) : List ℚ :=
  expandingMax ((sortByTs rows).map Prod.snd)

/-- Drawdown `(value − peak)/peak` (lines 119-121). -/
def perfDrawdown (rows : List (Int × ℚ)) : List (PF ℚ) :=
  List.zipWith (fun v p => pdDivQ (v - p) p)
    ((sortByTs rows).map Prod.snd) (perfPeak rows)

/-- Running maximum drawdown, the expanding minimum of drawdown
(lines 122-124). -/
def perfMaxDrawdown (rows : List (Int × ℚ)) : List (PF ℚ) :=
  expandingMinPF (perfDrawdown rows)

/-- The placeholder beta column, fixed at 1.0 (line 128). -/
def perfBeta (rows : List (Int × ℚ)) : List (PF ℚ) :=
  ((sortByTs rows).map Prod.snd).map (fun _ => PF.fin 1)

/-- The placeholder alpha column, `daily_return − riskfree/252`
(lines 131-133). -/
def perfAlpha (rows : List (Int × ℚ)) : List (PF ℚ) :=
  (perfDailyReturn rows).map (PF.subC (1 / 50 / 252))

/-- Output frame of `calculate_performance_metrics` (column selection of
lines 136-148 followed by the sanitisation of lines 150-152). -/
structure PerfOut where
  date : List Int
  value : List (PF ℚ)
  dailyReturn : List (PF ℚ)
  cumulativeReturn : List (PF ℚ)
  volatility30d : List (PF ℝ)
  sharpe : List (PF ℝ)
  maxDrawdown : List (PF ℚ)
  beta : List (PF ℚ)
  alpha : List (PF ℚ)

/-- Whole of `calculate_performance_metrics`. -/
noncomputable def perfOutput (rows : List (Int × ℚ)) : PerfOut :=
  { date := (sortByTs rows).map Prod.fst
    value := sanitizeCol (((sortByTs rows).map Prod.snd).map PF.fin)
    dailyReturn := sanitizeCol (perfDailyReturn rows)
    cumulativeReturn := sanitizeCol (perfCumulativeReturn rows)
    volatility30d := sanitizeCol (perfVolatility rows)
    sharpe := sanitizeCol (perfSharpe rows)
    maxDrawdown := sanitizeCol (perfMaxDrawdown rows)
    beta := sanitizeCol (perfBeta rows)
    alpha := sanitizeCol (perfAlpha rows) }

-- ### The risk-metrics pipeline (lines 170-263 of the source).
-- Lines 175-198 repeat, verbatim, the daily-return / volatility / peak /
-- drawdown / max-drawdown derivations of the performance function; the
-- definitions below mirror that duplication.

/-- Daily return as recomputed inside `calculate_risk_metrics`
(lines 175-180). -/
def riskDailyReturn (rows : List (Int × ℚ)) : List (PF ℚ) :=
  replaceInfZero (pctChange ((sortByTs rows).map Prod.snd))

/-- Rolling 30-sample volatility as recomputed inside
`calculate_risk_metrics` (lines 183-185). -/
noncomputable def riskVolatility (rows : List (Int × ℚ)) : List (PF ℝ) :=
  (rollingApplyR 30 stdR (riskDailyReturn rows)).map
    (PF.smulPos (Real.sqrt 252))

/-- Running peak as recomputed inside `calculate_risk_metrics`
(lines 186-188). -/
def riskPeak (rows : List (Int × ℚ)) : List ℚ :=
  expandingMax ((sortByTs rows).map Prod.snd)

/-- Drawdown as recomputed inside `calculate_risk_metrics`
(lines 189-191). -/
def riskDrawdown (rows : List (Int × ℚ)) : List (PF ℚ) :=
  List.zipWith (fun v p => pdDivQ (v - p) p)
    ((sortByTs rows).map Prod.snd) (riskPeak rows)

/-- Running maximum drawdown as recomputed inside `calculate_risk_metrics`
(lines 192-194). -/
def riskMaxDrawdown (rows : List (Int × ℚ)) : List (PF ℚ) :=
  expandingMinPF (riskDrawdown rows)

/-- Excess return as recomputed inside `calculate_risk_metrics`
(lines 195-198). -/
def riskExcessReturn (rows : List (Int × ℚ)) : List (PF ℚ) :=
  (riskDailyReturn rows).map (PF.subC (1 / 50 / 252))

/-- Rolling 30-sample VaR at the 95% level: the 5th percentile of the
trailing daily returns (lines 201-203). -/
def riskVar95 (rows : List (Int × ℚ)) : List (PF ℚ) :=
  rollingApplyQ 30 (fun l => PF.fin (quantileLin 5 l)) (riskDailyReturn rows)

/-- Rolling 30-sample CVaR via `calculate_cvar` (lines 205-214). -/
def riskCvar (rows : List (Int × ℚ)) : List (PF ℚ) :=
  rollingApplyQ 30 cvarFunc (riskDailyReturn rows)

/-- Rolling 30-sample downside deviation (lines 217-221). -/
noncomputable def riskDownside (rows : List (Int × ℚ)) : List (PF ℝ) :=
  rollingApplyR 30 downsideFunc (riskDailyReturn rows)

/-- Sortino: `(mean(return,252)·252 − riskfree) / (downside·√252)`
(lines 224-227). -/
noncomputable def riskSortino (rows : List (Int × ℚ)) : List (PF ℝ) :=
  List.zipWith PF.div
    ((rollingApplyQ 252 (fun l => PF.fin (meanQ l))
        (riskDailyReturn rows)).map
      (fun p => (PF.subC (1 / 50) (PF.smulPos 252 p)).toR))
    ((riskDownside rows).map (PF.smulPos (Real.sqrt 252)))

/-- Annualised rolling return `mean(return,252)·252` (lines 230-232). -/
def riskAnnualReturn (rows : List (Int × ℚ)) : List (PF ℚ) :=
  (rollingApplyQ 252 (fun l => PF.fin (meanQ l)) (riskDailyReturn rows)).map
    (PF.smulPos 252)

/-- Calmar: `annual_return / |max_drawdown|` (lines 233-235). -/
def riskCalmar (rows : List (Int × ℚ)) : List (PF ℚ) :=
  List.zipWith PF.div (riskAnnualReturn rows)
    ((riskMaxDrawdown rows).map PF.pfAbs)

/-- Tracking error `std(return,252)·√252` (lines 238-240). -/
noncomputable def riskTrackingErr (rows : List (Int × ℚ)) : List (PF ℝ) :=
  (rollingApplyR 252 stdR (riskDailyReturn rows)).map
    (PF.smulPos (Real.sqrt 252))

/-- Information: `mean(excess,252)·252 / tracking_error` (lines 241-245). -/
noncomputable def riskInformation (rows : List (Int × ℚ)) : List (PF ℝ) :=
  List.zipWith PF.div
    ((rollingApplyQ 252 (fun l => PF.fin (meanQ l))
        (riskExcessReturn rows)).map (fun p => (PF.smulPos 252 p).toR))
    (riskTrackingErr rows)

/-- Output frame of `calculate_risk_metrics` (column selection of lines
248-260 followed by the sanitisation of line 262). -/
structure RiskOut where
  date : List Int
  var9530 : List (PF ℚ)
  cvar9530 : List (PF ℚ)
  downsideDev : List (PF ℝ)
  sortinoCol : List (PF ℝ)
  calmarCol : List (PF ℚ)
  informationCol : List (PF ℝ)
  volatility30d : List (PF ℝ)
  maxDrawdown : List (PF ℚ)

/-- Whole of `calculate_risk_metrics`. -/
noncomputable def riskOutput (rows : List (Int × ℚ)) : RiskOut :=
  { date := (sortByTs rows).map Prod.fst
    var9530 := sanitizeCol (riskVar95 rows)
    cvar9530 := sanitizeCol (riskCvar rows)
    downsideDev := sanitizeCol (riskDownside rows)
    sortinoCol := sanitizeCol (riskSortino rows)
    calmarCol := sanitizeCol (riskCalmar rows)
    informationCol := sanitizeCol (riskInformation rows)
    volatility30d := sanitizeCol (riskVolatility rows)
    maxDrawdown := sanitizeCol (riskMaxDrawdown rows) }

/-- Monotone non-increase of the payloads of a column (read with `getD`). -/
def NonIncrPF (l : List (PF ℚ)) : Prop :=
  ∀ i j, i ≤ j → j < l.length →
    PF.val (l.getD j PF.nan) ≤ PF.val (l.getD i PF.nan)

/-- Spec scenario series 100, 110, 99, 120 (positive values). -/
def exRowsPos : List (Int × ℚ) := [(0, 100), (1, 110), (2, 99), (3, 120)]

/-- A 31-row value series: 10 once, then 20 thirty times. Its daily-return
series is NaN, 1, then twenty-nine 0s, so row 30 sees a full finite
window. -/
def exRows31 : List (Int × ℚ) :=
  (List.range 31).map (fun i => ((i : Int), if i = 0 then 10 else 20))

/-- All numeric columns of the returned performance frame are finite. -/
def PerfOutFinite (o : PerfOut) : Prop :=
  (∀ x ∈ o.value, x.isFin = true) ∧
  (∀ x ∈ o.dailyReturn, x.isFin = true) ∧
  (∀ x ∈ o.cumulativeReturn, x.isFin = true) ∧
  (∀ x ∈ o.volatility30d, x.isFin = true) ∧
  (∀ x ∈ o.sharpe, x.isFin = true) ∧
  (∀ x ∈ o.maxDrawdown, x.isFin = true) ∧
  (∀ x ∈ o.beta, x.isFin = true) ∧
  (∀ x ∈ o.alpha, x.isFin = true)

/-- All numeric columns of the returned risk frame are finite. -/
def RiskOutFinite (o : RiskOut) : Prop :=
  (∀ x ∈ o.var9530, x.isFin = true) ∧
  (∀ x ∈ o.cvar9530, x.isFin = true) ∧
  (∀ x ∈ o.downsideDev, x.isFin = true) ∧
  (∀ x ∈ o.sortinoCol, x.isFin = true) ∧
  (∀ x ∈ o.calmarCol, x.isFin = true) ∧
  (∀ x ∈ o.informationCol, x.isFin = true) ∧
  (∀ x ∈ o.volatility30d, x.isFin = true) ∧
  (∀ x ∈ o.maxDrawdown, x.isFin = true)

/-- Default row used only to read a list entry in the witness below. -/
def pensionRow0 : PensionRow :=
  ⟨0, none, none, none, none, PF.nan, none, PF.nan⟩

/-!
## SnapshotBuilder
Embedding of `create_portfolio_snapshots` (src/coinbase/data_transformer.py,
lines 167-217): positions carry an asset symbol and a quantity; the price
history carries one close per (asset, timestamp) row.
-/

/-- One current position (`asset_symbol`, `quantity`). -/
structure Position where
  sym : String
  quantity : ℚ
deriving DecidableEq

/-- One price-history row (`asset_symbol`, `date`, `close_price`). -/
structure PriceRow where
  sym : String
  dt : Int
  close : ℚ
deriving DecidableEq

/-- First price row for an asset at a date (`asset_price["close_price"]
.iloc[0]` after the two filters of lines 201-203). -/
def priceAt (prices : List PriceRow) (s : String) (d : Int) : Option ℚ :=
  ((prices.filter (fun r =>
    decide (r.sym = s) && decide (r.dt = d))).head?).map (fun r => r.close)

/-- The distinct timestamps of the price history, ascending
(`sorted(prices_df["date"].unique())`, line 187). -/
def snapDates (prices : List PriceRow) : List Int :=
  dedupSorted (sortInts (prices.map (fun r => r.dt)))

/-- The value accumulation of the inner loop (lines 196-206): an asset with
no observed price at the date contributes nothing. -/
def snapshotValue (positions : List Position) (prices : List PriceRow)
    (d : Int) : ℚ :=
  positions.foldl (fun acc p =>
    match priceAt prices p.sym d with
    | some c => acc + p.quantity * c
    | none => acc) 0

/-- Dictionary update of `asset_values[asset_symbol] = asset_value`. -/
def upsertAV (l : List (String × ℚ)) (s : String) (v : ℚ) :
    List (String × ℚ) :=
  if l.any (fun kv => decide (kv.1 = s)) then
    l.map (fun kv => if kv.1 = s then (s, v) else kv)
  else l ++ [(s, v)]

/-- The `asset_values` dictionary built by the inner loop. -/
def snapshotAssetValues (positions : List Position) (prices : List PriceRow)
    (d : Int) : List (String × ℚ) :=
  positions.foldl (fun acc p =>
    match priceAt prices p.sym d with
    | some c => upsertAV acc p.sym (p.quantity * c)
    | none => acc) []

/-- One emitted snapshot record (lines 209-214; the ISO timestamp string is
the date itself in this model). -/
structure Snapshot where
  dt : Int
  total : ℚ
  numAssets : Nat
deriving DecidableEq

/-- Model of `create_portfolio_snapshots`: empty inputs give an empty frame
(lines 178-179); otherwise one record per distinct price date whose
portfolio value is strictly positive (line 208). -/
def createPortfolioSnapshots (positions : List Position)
    (prices : List PriceRow) : List Snapshot :=
  if positions.isEmpty || prices.isEmpty then []
  else
    (snapDates prices).filterMap (fun d =>
      if 0 < snapshotValue positions prices d then
        some ⟨d, snapshotValue positions prices d,
          ((snapshotAssetValues positions prices d).filter
            (fun kv => decide (0 < kv.2))).length⟩
      else none)

/-- The specification-side sum: Σ over assets of quantity × close price at
the timestamp, contributing 0 for an asset with no observed price. -/
def specValue (positions : List Position) (prices : List PriceRow)
    (d : Int) : ℚ :=
  (positions.map (fun p => p.quantity * ((priceAt prices p.sym d).getD 0))).sum

/-- Spec scenario: one BTC position, prices at two timestamps. -/
def exPositions : List Position := [⟨"BTC", 1⟩]

/-- Spec scenario price history. -/
def exPrices : List PriceRow := [⟨"BTC", 1, 25000⟩, ⟨"BTC", 2, 30000⟩]

/-!
## AllocationAnalyzer
Embedding of the current-allocation part of `calculate_allocation_analysis`
(src/coinbase/analytics_calculator.py, lines 280-301 and the column drop of
line 328). The returned frame is the per-position table; the transient
historical `allocation_df` (lines 303-326) is built and discarded by the
source and is not part of the returned value.
-/

/-- One input position for the allocation analysis
(`percentage_allocation`). -/
structure PositionAlloc where
  sym : String
  pct : ℚ
deriving DecidableEq

/-- Model of `Series.rank(ascending=False)` at one value: descending rank with
average tie-handling. -/
def rankDesc (xs : List ℚ) (x : ℚ) : ℚ :=
  ((xs.filter (fun y => decide (x < y))).length : ℚ) +
    (((xs.filter (fun y => decide (y = x))).length : ℚ) + 1) / 2

/-- One row of the returned allocation frame (`allocation_fraction` is
dropped before return, line 328). -/
structure AllocRow where
  sym : String
  pct : ℚ
  rank : ℚ
  concRisk : ℚ
  portfolioConc : ℚ
  effAssets : ℚ
  divScore : ℚ
deriving DecidableEq

/-- Herfindahl sum `total_concentration = Σ (percentage_allocation/100)²` (lines 288-293). -/
def totalConcentration (pos : List PositionAlloc) : ℚ :=
  (pos.map (fun p => (p.pct / 100) ^ 2)).sum

/-- Guarded reciprocal `effective_assets = 1/total_concentration if total_concentration > 0
else 0` (line 294). -/
def effectiveAssets (pos : List PositionAlloc) : ℚ :=
  if 0 < totalConcentration pos then 1 / totalConcentration pos else 0

/-- The per-position output table with the three portfolio-level aggregates
broadcast onto every row (lines 281-301). -/
def calcAllocationAnalysis (pos : List PositionAlloc) : List AllocRow :=
  pos.map (fun p =>
    ⟨p.sym, p.pct, rankDesc (pos.map (fun q => q.pct)) p.pct,
      (p.pct / 100) ^ 2, totalConcentration pos, effectiveAssets pos,
      1 - totalConcentration pos⟩)

/-- A 60/40 two-asset allocation. -/
def exAlloc : List PositionAlloc := [⟨"BTC", 60⟩, ⟨"ETH", 40⟩]

/-!
## Caller-visible frame effects of the analyzers
`calculate_performance_metrics` and `calculate_risk_metrics` assign the
datetime-converted date column into the DataFrame objects passed by the
caller (lines 85-86 and 171-172) before rebinding the local name to a
sorted copy (lines 89 and 175), after which every further column assignment
stays local. A date cell is modelled as either a raw or an
already-converted value; each call returns the post-call state of the two
caller frames together with its output frame.
-/

/-- A date cell: raw as loaded from CSV, or datetime-converted. -/
inductive DVal where
  | raw : Int → DVal
  | dt : Int → DVal
deriving DecidableEq

/-- Model of `pd.to_datetime` on one cell: converts a raw cell, fixes a converted
one. -/
def toDatetime : DVal → DVal
  | DVal.raw n => DVal.dt n
  | DVal.dt n => DVal.dt n

/-- Underlying time key of a date cell. -/
def dkey : DVal → Int
  | DVal.raw n => n
  | DVal.dt n => n

/-- A caller-owned DataFrame: the date column, the value column consumed by
the analyzers, and all other pre-existing columns. -/
structure Frame where
  date : List DVal
  value : List ℚ
  extra : List (String × List ℚ)
deriving DecidableEq

/-- Effect of `df["date"] = pd.to_datetime(df["date"])` on a caller frame:
only the date column changes. -/
def convertDateCol (f : Frame) : Frame :=
  { f with date := f.date.map toDatetime }

/-- The (date, value) rows the sorted local copy works on. -/
def frameRows (f : Frame) : List (Int × ℚ) :=
  List.zip (f.date.map dkey) f.value

/-- Model of `calculate_performance_metrics` with its caller-visible effect: the
returned pair of frames is the state of the caller's objects after the
call. -/
noncomputable def calcPerformanceSt (ps pnl : Frame) :
    (Frame × Frame) × PerfOut :=
  ((convertDateCol ps, convertDateCol pnl),
    perfOutput (frameRows (convertDateCol ps)))

/-- Model of `calculate_risk_metrics` with its caller-visible effect. -/
noncomputable def calcRiskSt (ps pnl : Frame) :
    (Frame × Frame) × RiskOut :=
  ((convertDateCol ps, convertDateCol pnl),
    riskOutput (frameRows (convertDateCol ps)))

/-!
## CorrelationAnalyzer
Embedding of `calculate_correlation_metrics`
(src/coinbase/analytics_calculator.py, lines 426-541). Asset symbols are
modelled as integers (any linearly ordered symbol type; the pivot of the
source orders its columns by sorting the symbols). The
`drop_duplicates(subset=["date","asset_symbol"], keep="last")` followed by
the pivot with `fillna(0)` is modelled by reading, per (date, asset) cell,
the last matching row's close (0 if none); after deduplication the pivot
cannot raise, so the `except ValueError` fallback of lines 458-468 is
unreachable. Pearson entries follow pandas `nancorr`: an entry whose
divisor `sqrt(Sxx)·sqrt(Syy)` is zero is NaN (`none`), as is an entry whose
column carries a non-finite return. The `calculation_date` timestamp column
is environment-dependent and not modelled. -/

/-- One long-form price row for the correlation input. -/
structure CorrPriceRec where
  dt : Int
  sym : Int
  close : ℚ
deriving DecidableEq

/-- Pivot column order: the sorted distinct asset symbols. -/
def corrAssets (ps : List CorrPriceRec) : List Int :=
  dedupSorted (sortInts (ps.map (fun r => r.sym)))

/-- Pivot row order: the sorted distinct dates. -/
def corrDates (ps : List CorrPriceRec) : List Int :=
  dedupSorted (sortInts (ps.map (fun r => r.dt)))

/-- One cell of the pivot after `drop_duplicates(keep="last")` and
`fillna(0)`. -/
def gridVal (ps : List CorrPriceRec) (d a : Int) : ℚ :=
  ((lastP (ps.filter (fun r =>
    decide (r.dt = d) && decide (r.sym = a)))).map (fun r => r.close)).getD 0

/-- All return rows: `price_pivot.pct_change()` without its all-NaN first
row, one entry per asset per consecutive date pair. -/
def retRowsAll (ps : List CorrPriceRec) : List (List (PF ℚ)) :=
  (List.zip (corrDates ps) (corrDates ps).tail).map (fun dp =>
    (corrAssets ps).map (fun a => pdRet (gridVal ps dp.1 a) (gridVal ps dp.2 a)))

/-- The aligned return rows surviving `dropna()` (a row is dropped when any
of its cells is NaN; the first pivot row never reaches this list). -/
def keptRows (ps : List CorrPriceRec) : List (List (PF ℚ)) :=
  (retRowsAll ps).filter (fun row => !(row.any PF.isNan))

/-- Return column of asset number `j` (in pivot column order) over the kept
rows. -/
def retCol (ps : List CorrPriceRec) (j : Nat) : List (PF ℚ) :=
  (keptRows ps).map (fun row => row.getD j PF.nan)

/-- Finite payloads of a return column. -/
def retColQ (ps : List CorrPriceRec) (j : Nat) : List ℚ :=
  (retCol ps j).map PF.val

/-- Centred cross moment Σ (xᵢ − mean x)(yᵢ − mean y), the shared numerator
and divisor ingredient of a Pearson entry. -/
def demeanedDot (xs ys : List ℚ) : ℚ :=
  (List.zipWith (fun a b => (a - meanQ xs) * (b - meanQ ys)) xs ys).sum

/-- Real value of a Pearson entry. -/
noncomputable def corrValueR (xs ys : List ℚ) : ℝ :=
  ((demeanedDot xs ys : ℚ) : ℝ) /
    (Real.sqrt ((demeanedDot xs xs : ℚ) : ℝ) *
      Real.sqrt ((demeanedDot ys ys : ℚ) : ℝ))

/-- Pearson entry on finite columns: NaN (`none`) when a divisor factor is
zero, as in pandas `nancorr`. -/
noncomputable def corrEntryQ (xs ys : List ℚ) : Option ℝ :=
  if demeanedDot xs xs = 0 ∨ demeanedDot ys ys = 0 then none
  else some (corrValueR xs ys)

/-- Pearson entry on raw columns: a column with a non-finite cell (an
infinite return from a zero-filled price) yields NaN. -/
noncomputable def corrEntry (xs ys : List (PF ℚ)) : Option ℝ :=
  match allFinList xs, allFinList ys with
  | some xq, some yq => corrEntryQ xq yq
  | _, _ => none

/-- Model of `returns.corr()`: the full pairwise matrix in pivot column order. -/
noncomputable def corrMatrix (ps : List CorrPriceRec) :
    List (List (Option ℝ)) :=
  (List.range (corrAssets ps).length).map (fun i =>
    (List.range (corrAssets ps).length).map (fun j =>
      corrEntry (retCol ps i) (retCol ps j)))

/-- The defined entries of the strict upper triangle, as collected by
`correlation_matrix.where(triu(k=1)).stack()` (stacking drops NaN cells). -/
noncomputable def upperEntries (ps : List CorrPriceRec) : List ℝ :=
  ((List.range (corrAssets ps).length).map (fun i =>
    (List.range (corrAssets ps).length).filterMap (fun j =>
      if i < j then corrEntry (retCol ps i) (retCol ps j) else none))).join

/-- Mean `avg_correlation = upper_triangle.stack().mean()` (NaN when no defined
upper entry remains). -/
noncomputable def avgCorrelation (ps : List CorrPriceRec) : Option ℝ :=
  if (upperEntries ps).length = 0 then none
  else some ((upperEntries ps).sum / ((upperEntries ps).length : ℝ))

/-- The result record of `calculate_correlation_metrics`: the scalar
summary fields, the serialised matrix, and the notes string. -/
structure CorrResult where
  avgCorr : Option ℝ
  divScore : Option ℝ
  matrix : List (List (Option ℝ))
  notes : String

/-- Model of `calculate_correlation_metrics`: the three insufficient-data branches
(lines 441-451, 471-483, 489-499) and the computed branch
(lines 501-528). -/
noncomputable def calcCorrelationMetrics (ps : List CorrPriceRec) :
    CorrResult :=
  if ps.length = 0 then
    ⟨some 0, some 0, [], "No price data available"⟩
  else if (corrAssets ps).length < 2 then
    ⟨some 0, some 0, [],
      "Only " ++ toString (corrAssets ps).length ++ " asset(s) available"⟩
  else if (keptRows ps).length < 2 then
    ⟨some 0, some 0, [], "Insufficient return data"⟩
  else
    ⟨avgCorrelation ps, (avgCorrelation ps).map (fun a => 1 - |a|),
      corrMatrix ps,
      "Correlation calculated for " ++ toString (corrAssets ps).length ++
        " assets."⟩

/-- A single-asset price history. -/
def exCorrOne : List CorrPriceRec := [⟨0, 7, 10⟩, ⟨1, 7, 11⟩]

/-- The strict-upper-triangle Pearson values as the specification reads
them: one real value per pair i < j, no cell dropped. -/
noncomputable def upperVals (ps : List CorrPriceRec) : List ℝ :=
  ((List.range (corrAssets ps).length).map (fun i =>
    (List.range (corrAssets ps).length).filterMap (fun j =>
      if i < j then some (corrValueR (retColQ ps i) (retColQ ps j))
      else none))).join

/-- Two-asset history in which asset 1 has the constant price 1 while asset
2 moves 1, 2, 3. -/
def exCorrConst : List CorrPriceRec :=
  [⟨0, 1, 1⟩, ⟨1, 1, 1⟩, ⟨2, 1, 1⟩, ⟨0, 2, 1⟩, ⟨1, 2, 2⟩, ⟨2, 2, 3⟩]

/-- Two-asset history with both return columns non-constant: asset 1 moves
1, 2, 6 (returns 1 then 2) and asset 2 moves 1, 3, 6 (returns 2 then 1). -/
def exCorrTwo : List CorrPriceRec :=
  [⟨0, 1, 1⟩, ⟨1, 1, 2⟩, ⟨2, 1, 6⟩, ⟨0, 2, 1⟩, ⟨1, 2, 3⟩, ⟨2, 2, 6⟩]

theorem mem_insertLe {a x : Int} {l : List Int} :
    a ∈ insertLe x l ↔ a = x ∨ a ∈ l := by
  induction l with
  | nil => simp [insertLe]
  | cons y ys ih =>
    by_cases h : x ≤ y
    · simp [insertLe, h]
    · simp [insertLe, h, ih]
      tauto

theorem pairwise_insertLe {x : Int} {l : List Int}
    (h : l.Pairwise (· ≤ ·)) : (insertLe x l).Pairwise (· ≤ ·) := by
  induction l with
  | nil => simp [insertLe]
  | cons y ys ih =>
    rcases List.pairwise_cons.mp h with ⟨hy, hys⟩
    by_cases hxy : x ≤ y
    · simp only [insertLe, if_pos hxy]
      refine List.pairwise_cons.mpr ⟨?_, h⟩
      intro b hb
      rcases List.mem_cons.mp hb with rfl | hb
      · exact hxy
      · exact le_trans hxy (hy b hb)
    · have hyx : y ≤ x := le_of_not_le hxy
      simp only [insertLe, if_neg hxy]
      refine List.pairwise_cons.mpr ⟨?_, ih hys⟩
      intro b hb
      rcases mem_insertLe.mp hb with rfl | hb
      · exact hyx
      · exact hy b hb

theorem sortInts_pairwise (xs : List Int) :
    (sortInts xs).Pairwise (· ≤ ·) := by
  induction xs with
  | nil => simp [sortInts]
  | cons x xs ih => exact pairwise_insertLe ih

theorem mem_sortInts {a : Int} {xs : List Int} :
    a ∈ sortInts xs ↔ a ∈ xs := by
  induction xs with
  | nil => simp [sortInts]
  | cons x xs ih =>
    simp only [sortInts, List.foldr_cons]
    rw [mem_insertLe]
    simp [sortInts] at ih
    simp [ih]

theorem mem_dedupSorted {a : Int} : ∀ {l : List Int},
    a ∈ dedupSorted l ↔ a ∈ l := by
  intro l
  induction l with
  | nil => simp [dedupSorted]
  | cons x l ih =>
    cases l with
    | nil => simp [dedupSorted]
    | cons y ys =>
      by_cases hxy : x = y
      · subst hxy
        rw [show dedupSorted (x :: x :: ys) = dedupSorted (x :: ys) from by
          simp [dedupSorted]]
        rw [ih]
        simp
      · simp only [dedupSorted, if_neg hxy, List.mem_cons]
        rw [ih]
        simp

theorem dedupSorted_pairwise : ∀ {l : List Int},
    l.Pairwise (· ≤ ·) → (dedupSorted l).Pairwise (· < ·) := by
  intro l
  induction l with
  | nil => simp [dedupSorted]
  | cons x l ih =>
    intro h
    rcases List.pairwise_cons.mp h with ⟨hx, hl⟩
    cases l with
    | nil => simp [dedupSorted]
    | cons y ys =>
      by_cases hxy : x = y
      · subst hxy
        simpa [dedupSorted] using ih hl
      · have hxlt : x < y := lt_of_le_of_ne (hx y (by simp)) hxy
        simp only [dedupSorted, if_neg hxy]
        refine List.pairwise_cons.mpr ⟨?_, ih hl⟩
        intro b hb
        have hb2 : b ∈ y :: ys := mem_dedupSorted.mp hb
        rcases List.mem_cons.mp hb2 with rfl | hb3
        · exact hxlt
        · have : y ≤ b := (List.pairwise_cons.mp hl).1 b hb3
          exact lt_of_lt_of_le hxlt this

-- ### Supporting lemmas about the fill primitives

theorem lastDefined_append_single (l : List Int) (t : Int)
    (col : Int → Option ℚ) :
    lastDefined (l ++ [t]) col = orO (col t) (lastDefined l col) := by
  simp [lastDefined, List.foldl_append]

theorem foldl_orO_eq_none_iff (l : List Int) (col : Int → Option ℚ)
    (acc : Option ℚ) :
    l.foldl (fun a s => orO (col s) a) acc = none ↔
      acc = none ∧ ∀ s ∈ l, col s = none := by
  induction l generalizing acc with
  | nil => simp
  | cons a l ih =>
    simp only [List.foldl_cons, ih, List.mem_cons]
    constructor
    · rintro ⟨h1, h2⟩
      rcases ha : col a with _ | v
      · simp [orO, ha] at h1
        exact ⟨h1, fun s hs => hs.elim (fun hsa => hsa ▸ ha) (h2 s)⟩
      · simp [orO, ha] at h1
    · rintro ⟨h1, h2⟩
      have ha : col a = none := h2 a (Or.inl rfl)
      exact ⟨by simp [orO, ha, h1], fun s hs => h2 s (Or.inr hs)⟩

theorem lastDefined_eq_none_iff (l : List Int) (col : Int → Option ℚ) :
    lastDefined l col = none ↔ ∀ s ∈ l, col s = none := by
  unfold lastDefined
  rw [foldl_orO_eq_none_iff]
  simp

theorem filter_le_split {l : List Int} {t : Int}
    (hs : l.Pairwise (· < ·)) (ht : t ∈ l) :
    l.filter (fun s => decide (s ≤ t)) =
      l.filter (fun s => decide (s < t)) ++ [t] := by
  induction l with
  | nil => cases ht
  | cons a l ih =>
    rcases List.pairwise_cons.mp hs with ⟨ha, hl⟩
    rcases List.mem_cons.mp ht with rfl | hmem
    · have h1 : l.filter (fun s => decide (s ≤ t)) = [] := by
        rw [List.filter_eq_nil]
        intro b hb
        simpa using not_le_of_lt (ha b hb)
      have h2 : l.filter (fun s => decide (s < t)) = [] := by
        rw [List.filter_eq_nil]
        intro b hb
        simpa using not_lt_of_lt (ha b hb)
      simp [List.filter_cons, h1, h2]
    · have hat : a < t := by
        have h1 := List.pairwise_cons.mp hs
        exact h1.1 t hmem
      simp only [List.filter_cons, decide_eq_true_eq, if_pos hat.le,
        if_pos hat]
      rw [ih hl hmem]
      simp

/-- Reading a forward fill at a member `t` of a strictly ascending index
splits into the value at `t` or else the fill over the strictly earlier
entries. -/
theorem lastDefined_at_mem {l : List Int} {t : Int}
    (hs : l.Pairwise (· < ·)) (ht : t ∈ l) (col : Int → Option ℚ) :
    lastDefined (l.filter (fun s => decide (s ≤ t))) col =
      orO (col t) (lastDefined (l.filter (fun s => decide (s < t))) col) := by
  rw [filter_le_split hs ht, lastDefined_append_single]

theorem lastP_mem {α : Type} : ∀ {l : List α} {a : α},
    lastP l = some a → a ∈ l := by
  intro l
  induction l with
  | nil => intro a h; cases h
  | cons x l ih =>
    intro a h
    cases l with
    | nil =>
      simp [lastP] at h
      simp [h]
    | cons y ys =>
      have : lastP (y :: ys) = some a := h
      exact List.mem_cons_of_mem x (ih this)

theorem prevAnchor_spec {tl : List Int} {obs : Int → Option ℚ} {t tb : Int}
    {vb : ℚ} (h : prevAnchor tl obs t = some (tb, vb)) :
    tb ∈ tl ∧ tb < t ∧ obs tb = some vb := by
  have hmem := lastP_mem h
  rcases List.mem_filterMap.mp hmem with ⟨s, hs, hf⟩
  by_cases hst : s < t
  · rw [if_pos hst] at hf
    rcases Option.map_eq_some'.mp hf with ⟨v, hv, heq⟩
    have hs2 : s = tb ∧ v = vb := by
      constructor <;> injection heq with h1 h2 <;> simp_all
    rcases hs2 with ⟨rfl, rfl⟩
    exact ⟨hs, hst, hv⟩
  · rw [if_neg hst] at hf
    cases hf

theorem pensionTimeline_pairwise (cf sn : List (Int × ℚ)) :
    (pensionTimeline cf sn).Pairwise (· < ·) :=
  dedupSorted_pairwise (sortInts_pairwise _)

/-- A row of the merged timeline whose value after the `fillna` step is
defined keeps that value through the final forward fill. -/
theorem pension_pre_some {cf sn : List (Int × ℚ)} {t : Int} {v : ℚ}
    (ht : t ∈ pensionTimeline cf sn)
    (hp : imputedPreAt cf sn (pensionTimeline cf sn) t = some v) :
    imputedAt cf sn t = some v := by
  unfold imputedAt
  rw [lastDefined_at_mem (pensionTimeline_pairwise cf sn) ht, hp]
  rfl

theorem prevAnchor_eq_none {tl : List Int} {obs : Int → Option ℚ} {t : Int}
    (h : ∀ s ∈ tl, s < t → obs s = none) : prevAnchor tl obs t = none := by
  unfold prevAnchor
  have : (tl.filterMap (fun s =>
      if s < t then (obs s).map (fun v => (s, v)) else none)) = [] := by
    rw [List.filterMap_eq_nil]
    intro s hs
    by_cases hst : s < t
    · rw [if_pos hst, h s hs hst]
      rfl
    · rw [if_neg hst]
  rw [this]
  rfl

/-- C1. For every pension account processed by the reconciler and every
timestamp of the merged event timeline: (i) the imputed value equals the
observed valuation where one exists at that exact timestamp; (ii) at a
timestamp strictly between two observed valuations it equals the linear
interpolation of the two bracketing observed values weighted by elapsed real
time; (iii) at a timestamp before the first observed valuation it equals the
(forward-filled) cumulative cash invested at that timestamp; (iv) at a
timestamp after the last observed valuation it equals the last known imputed
value carried forward. -/
theorem pension_imputed_value_policy (cf sn : List (Int × ℚ)) (t : Int)
    (ht : t ∈ pensionTimeline cf sn) :
    (∀ v, obsAt sn t = some v → imputedAt cf sn t = some v) ∧
    (∀ tb vb ta va, obsAt sn t = none →
      prevAnchor (pensionTimeline cf sn) (obsAt sn) t = some (tb, vb) →
      nextAnchor (pensionTimeline cf sn) (obsAt sn) t = some (ta, va) →
      imputedAt cf sn t =
        some (vb + (va - vb) *
          (((t - tb : Int) : ℚ) / ((ta - tb : Int) : ℚ)))) ∧
    ((∀ s ∈ pensionTimeline cf sn, s ≤ t → obsAt sn s = none) →
      imputedAt cf sn t = cashFAt cf (pensionTimeline cf sn) t) ∧
    (∀ tb vb, obsAt sn t = none →
      prevAnchor (pensionTimeline cf sn) (obsAt sn) t = some (tb, vb) →
      nextAnchor (pensionTimeline cf sn) (obsAt sn) t = none →
      imputedAt cf sn t = imputedAt cf sn tb) := by
  refine ⟨?_, ?_, ?_, ?_⟩
  · intro v hv
    apply pension_pre_some ht
    simp [imputedPreAt, interpAt, hv, orO]
  · intro tb vb ta va h0 hp hn
    apply pension_pre_some ht
    simp [imputedPreAt, interpAt, h0, hp, hn, orO]
  · intro hnone
    cases hc : cashFAt cf (pensionTimeline cf sn) t with
    | some c =>
      apply pension_pre_some ht
      have hobs : obsAt sn t = none := hnone t ht le_rfl
      have hprev :
          prevAnchor (pensionTimeline cf sn) (obsAt sn) t = none :=
        prevAnchor_eq_none (fun s hs hst => hnone s hs hst.le)
      simp [imputedPreAt, interpAt, hobs, hprev, orO, hc]
    | none =>
      unfold imputedAt
      rw [lastDefined_eq_none_iff]
      intro s hsmem
      rcases List.mem_filter.mp hsmem with ⟨hstl, hsle⟩
      have hsle2 : s ≤ t := of_decide_eq_true hsle
      have hobs : obsAt sn s = none := hnone s hstl hsle2
      have hprev :
          prevAnchor (pensionTimeline cf sn) (obsAt sn) s = none :=
        prevAnchor_eq_none (fun u hu hus =>
          hnone u hu (le_trans hus.le hsle2))
      have hcash : cashFAt cf (pensionTimeline cf sn) s = none := by
        unfold cashFAt
        rw [lastDefined_eq_none_iff]
        intro u humem
        rcases List.mem_filter.mp humem with ⟨hutl, hule⟩
        have hule2 : u ≤ s := of_decide_eq_true hule
        have h2 := (lastDefined_eq_none_iff _ _).mp hc
        exact h2 u (List.mem_filter.mpr
          ⟨hutl, decide_eq_true (le_trans hule2 hsle2)⟩)
      simp [imputedPreAt, interpAt, hobs, hprev, hcash, orO]
  · intro tb vb h0 hp hn
    rcases prevAnchor_spec hp with ⟨htb, _, hobstb⟩
    have h1 : imputedAt cf sn t = some vb := by
      apply pension_pre_some ht
      simp [imputedPreAt, interpAt, h0, hp, hn, orO]
    have h2 : imputedAt cf sn tb = some vb := by
      apply pension_pre_some htb
      simp [imputedPreAt, interpAt, hobstb, orO]
    rw [h1, h2]

/-- Witness for C1: on the example streams, timestamp 3 lies strictly
between the observed valuations at 2 and 6, and the imputed value at 3 is
the time-weighted interpolation 1200 + 800·(1/4) of the two. -/
theorem pension_imputed_value_policy_witness :
    (3 : Int) ∈ pensionTimeline exCf1 exSn1 ∧
    obsAt exSn1 3 = none ∧
    prevAnchor (pensionTimeline exCf1 exSn1) (obsAt exSn1) 3 =
      some (2, 1200) ∧
    nextAnchor (pensionTimeline exCf1 exSn1) (obsAt exSn1) 3 =
      some (6, 2000) ∧
    imputedAt exCf1 exSn1 3 =
      some (1200 + (2000 - 1200) *
        ((((3 : Int) - 2 : Int) : ℚ) / (((6 : Int) - 2 : Int) : ℚ))) :=
  ⟨by decide, by decide, by decide, by decide,
    (pension_imputed_value_policy exCf1 exSn1 3 (by decide)).2.1
      2 1200 6 2000 (by decide) (by decide) (by decide)⟩

/-- C9. The daily-return, 30-day-volatility and max-drawdown series computed
inside `calculate_risk_metrics` coincide, row for row, with the series
computed by `calculate_performance_metrics` on the same input frame: the
duplicated derivations are identical. -/
theorem risk_reproduces_performance_series (rows : List (Int × ℚ)) :
    riskDailyReturn rows = perfDailyReturn rows ∧
    riskVolatility rows = perfVolatility rows ∧
    riskMaxDrawdown rows = perfMaxDrawdown rows :=
  ⟨rfl, rfl, rfl⟩

-- ### List lemmas shared by the analytics proofs

theorem mem_insertByTs {a x : Int × ℚ} {l : List (Int × ℚ)} :
    a ∈ insertByTs x l ↔ a = x ∨ a ∈ l := by
  induction l with
  | nil => simp [insertByTs]
  | cons y ys ih =>
    by_cases h : x.1 ≤ y.1
    · simp [insertByTs, h]
    · simp [insertByTs, h, ih]
      tauto

theorem mem_sortByTs {a : Int × ℚ} {l : List (Int × ℚ)} :
    a ∈ sortByTs l ↔ a ∈ l := by
  induction l with
  | nil => simp [sortByTs]
  | cons x xs ih =>
    simp only [sortByTs, List.foldr_cons]
    rw [mem_insertByTs]
    simp [sortByTs] at ih
    simp [ih]

theorem getD_map_lt {α β : Type} (f : α → β) (l : List α) (d : α) (e : β)
    (hd : f d = e) : ∀ i, (l.map f).getD i e = f (l.getD i d) := by
  intro i
  induction l generalizing i with
  | nil => simp [hd]
  | cons x xs ih =>
    cases i with
    | zero => simp
    | succ i => simpa using ih i

theorem getD_mem_of_lt {α : Type} (l : List α) (d : α) :
    ∀ i, i < l.length → l.getD i d ∈ l := by
  intro i
  induction l generalizing i with
  | nil => intro h; simp at h
  | cons x xs ih =>
    intro h
    cases i with
    | zero => simp
    | succ i =>
      simp only [List.getD_cons_succ]
      exact List.mem_cons_of_mem x (ih i (by simpa using h))

theorem zipWith_getD {α β γ : Type} (f : α → β → γ) (as : List α)
    (bs : List β) (da : α) (db : β) (dc : γ) :
    ∀ i, i < as.length → i < bs.length →
      (List.zipWith f as bs).getD i dc = f (as.getD i da) (bs.getD i db) := by
  intro i
  induction as generalizing bs i with
  | nil => intro h; simp at h
  | cons a as ih =>
    intro ha hb
    cases bs with
    | nil => simp at hb
    | cons b bs =>
      cases i with
      | zero => simp
      | succ i =>
        simp only [List.zipWith_cons_cons, List.getD_cons_succ]
        exact ih bs i (by simpa using ha) (by simpa using hb)

theorem zipWith_mem {α β γ : Type} (f : α → β → γ) :
    ∀ (as : List α) (bs : List β) (y : γ), y ∈ List.zipWith f as bs →
      ∃ a b, a ∈ as ∧ b ∈ bs ∧ y = f a b := by
  intro as
  induction as with
  | nil => intro bs y h; simp at h
  | cons a as ih =>
    intro bs y h
    cases bs with
    | nil => simp at h
    | cons b bs =>
      simp only [List.zipWith_cons_cons, List.mem_cons] at h
      rcases h with rfl | h
      · exact ⟨a, b, by simp, by simp, rfl⟩
      · rcases ih bs y h with ⟨a2, b2, h1, h2, h3⟩
        exact ⟨a2, b2, List.mem_cons_of_mem a h1,
          List.mem_cons_of_mem b h2, h3⟩

theorem expandingMaxAux_length (m : ℚ) (xs : List ℚ) :
    (expandingMaxAux m xs).length = xs.length := by
  induction xs generalizing m with
  | nil => rfl
  | cons x xs ih => simp [expandingMaxAux, ih]

theorem expandingMax_length (xs : List ℚ) :
    (expandingMax xs).length = xs.length := by
  cases xs with
  | nil => rfl
  | cons x xs => simp [expandingMax, expandingMaxAux_length]

theorem expandingMaxAux_ge (m : ℚ) (xs : List ℚ) :
    ∀ i, i < xs.length → xs.getD i 0 ≤ (expandingMaxAux m xs).getD i 0 := by
  induction xs generalizing m with
  | nil => intro i h; simp at h
  | cons x xs ih =>
    intro i h
    cases i with
    | zero => simp [expandingMaxAux, le_max_right]
    | succ i =>
      simp only [expandingMaxAux, List.getD_cons_succ]
      exact ih (max m x) i (by simpa using h)

theorem expandingMax_ge (xs : List ℚ) :
    ∀ i, i < xs.length → xs.getD i 0 ≤ (expandingMax xs).getD i 0 := by
  intro i h
  cases xs with
  | nil => simp at h
  | cons x xs =>
    cases i with
    | zero => simp [expandingMax]
    | succ i =>
      simp only [expandingMax, List.getD_cons_succ]
      exact expandingMaxAux_ge x xs i (by simpa using h)

theorem expandingMaxAux_pos (m : ℚ) (xs : List ℚ) (hm : 0 < m)
    (hxs : ∀ x ∈ xs, 0 < x) :
    ∀ y ∈ expandingMaxAux m xs, 0 < y := by
  induction xs generalizing m with
  | nil => intro y h; simp [expandingMaxAux] at h
  | cons x xs ih =>
    intro y hy
    simp only [expandingMaxAux, List.mem_cons] at hy
    rcases hy with rfl | hy
    · exact lt_max_of_lt_left hm
    · exact ih (max m x) (lt_max_of_lt_left hm)
        (fun z hz => hxs z (List.mem_cons_of_mem x hz)) y hy

theorem expandingMax_pos (xs : List ℚ) (hxs : ∀ x ∈ xs, 0 < x) :
    ∀ y ∈ expandingMax xs, 0 < y := by
  intro y hy
  cases xs with
  | nil => simp [expandingMax] at hy
  | cons x xs =>
    simp only [expandingMax, List.mem_cons] at hy
    rcases hy with rfl | hy
    · exact hxs y (by simp)
    · exact expandingMaxAux_pos x xs (hxs x (by simp))
        (fun z hz => hxs z (List.mem_cons_of_mem x hz)) y hy

theorem pdDivQ_of_ne_zero {a b : ℚ} (hb : b ≠ 0) :
    pdDivQ a b = PF.fin (a / b) := by
  unfold pdDivQ
  rw [if_neg hb]

theorem isFin_exists {x : PF ℚ} (h : x.isFin = true) : ∃ q, x = PF.fin q := by
  cases x with
  | fin q => exact ⟨q, rfl⟩
  | pinf => simp [PF.isFin] at h
  | ninf => simp [PF.isFin] at h
  | nan => simp [PF.isFin] at h

theorem expandingMinAux_bound (xs : List (PF ℚ))
    (hfin : ∀ x ∈ xs, x.isFin = true) : ∀ (m : ℚ),
    ∀ y ∈ expandingMinAux (PF.fin m) xs,
      (∃ q, y = PF.fin q) ∧ PF.val y ≤ m := by
  induction xs with
  | nil => intro m y h; simp [expandingMinAux] at h
  | cons x xs ih =>
    intro m y hy
    obtain ⟨a, rfl⟩ := isFin_exists (hfin x (by simp))
    have hxs : ∀ z ∈ xs, z.isFin = true :=
      fun z hz => hfin z (List.mem_cons_of_mem _ hz)
    have hstep : pfMinSkip (PF.fin m) (PF.fin a) = PF.fin (min m a) := rfl
    simp only [expandingMinAux, hstep, List.mem_cons] at hy
    rcases hy with rfl | hy
    · exact ⟨⟨min m a, rfl⟩, min_le_left m a⟩
    · rcases ih hxs (min m a) y hy with ⟨h1, h2⟩
      exact ⟨h1, le_trans h2 (min_le_left m a)⟩

theorem nonIncr_cons (x : PF ℚ) (l : List (PF ℚ))
    (h1 : ∀ y ∈ l, PF.val y ≤ PF.val x) (h2 : NonIncrPF l) :
    NonIncrPF (x :: l) := by
  intro i j hij hj
  cases j with
  | zero =>
    have : i = 0 := Nat.le_zero.mp hij
    subst this
    rfl
  | succ j =>
    have hjl : j < l.length := by simpa using hj
    cases i with
    | zero =>
      simp only [List.getD_cons_succ, List.getD_cons_zero]
      exact h1 _ (getD_mem_of_lt l PF.nan j hjl)
    | succ i =>
      simp only [List.getD_cons_succ]
      exact h2 i j (Nat.succ_le_succ_iff.mp hij) hjl

theorem expandingMinAux_nonincr (xs : List (PF ℚ))
    (hfin : ∀ x ∈ xs, x.isFin = true) : ∀ (m : ℚ),
    NonIncrPF (expandingMinAux (PF.fin m) xs) := by
  induction xs with
  | nil => intro m i j _ h; simp [expandingMinAux] at h
  | cons x xs ih =>
    intro m
    obtain ⟨a, rfl⟩ := isFin_exists (hfin x (by simp))
    have hxs : ∀ z ∈ xs, z.isFin = true :=
      fun z hz => hfin z (List.mem_cons_of_mem _ hz)
    have hstep : pfMinSkip (PF.fin m) (PF.fin a) = PF.fin (min m a) := rfl
    simp only [expandingMinAux, hstep]
    refine nonIncr_cons _ _ ?_ (ih hxs (min m a))
    intro y hy
    have := (expandingMinAux_bound xs hxs (min m a) y hy).2
    simpa [PF.val] using this

theorem expandingMinPF_allfin (xs : List (PF ℚ))
    (hfin : ∀ x ∈ xs, x.isFin = true) :
    ∀ y ∈ expandingMinPF xs, y.isFin = true := by
  cases xs with
  | nil => intro y h; simp [expandingMinPF, expandingMinAux] at h
  | cons x xs =>
    intro y hy
    obtain ⟨a, rfl⟩ := isFin_exists (hfin x (by simp))
    have hxs : ∀ z ∈ xs, z.isFin = true :=
      fun z hz => hfin z (List.mem_cons_of_mem _ hz)
    have hstep : pfMinSkip PF.nan (PF.fin a) = PF.fin a := rfl
    simp only [expandingMinPF, expandingMinAux, hstep, List.mem_cons] at hy
    rcases hy with rfl | hy
    · rfl
    · rcases (expandingMinAux_bound xs hxs a y hy).1 with ⟨q, rfl⟩
      rfl

theorem expandingMinPF_nonincr (xs : List (PF ℚ))
    (hfin : ∀ x ∈ xs, x.isFin = true) : NonIncrPF (expandingMinPF xs) := by
  cases xs with
  | nil => intro i j _ h; simp [expandingMinPF, expandingMinAux] at h
  | cons x xs =>
    obtain ⟨a, rfl⟩ := isFin_exists (hfin x (by simp))
    have hxs : ∀ z ∈ xs, z.isFin = true :=
      fun z hz => hfin z (List.mem_cons_of_mem _ hz)
    have hstep : pfMinSkip PF.nan (PF.fin a) = PF.fin a := rfl
    simp only [expandingMinPF, expandingMinAux, hstep]
    refine nonIncr_cons _ _ ?_ (expandingMinAux_nonincr xs hxs a)
    intro y hy
    have := (expandingMinAux_bound xs hxs a y hy).2
    simpa [PF.val] using this

theorem sanitizeCol_allfin {l : List (PF ℚ)}
    (h : ∀ x ∈ l, x.isFin = true) : sanitizeCol l = l := by
  induction l with
  | nil => rfl
  | cons x xs ih =>
    obtain ⟨a, rfl⟩ := isFin_exists (h x (by simp))
    have hxs : ∀ z ∈ xs, z.isFin = true :=
      fun z hz => h z (List.mem_cons_of_mem _ hz)
    simp only [sanitizeCol, List.map_cons]
    rw [show PF.sanitize (PF.fin a) = PF.fin a from rfl]
    have := ih hxs
    simp only [sanitizeCol] at this
    rw [this]

/-- C2 (amended: for a series of positive portfolio values). Every computed
drawdown value `(value_t − running_max)/running_max` is finite and at most
0, and the `max_drawdown` column of the returned performance frame is
monotonically non-increasing over time. -/
theorem drawdown_nonpos_maxdd_nonincreasing (rows : List (Int × ℚ))
    (hpos : ∀ r ∈ rows, 0 < r.2) :
    (∀ i, i < (perfDrawdown rows).length →
      ∃ q : ℚ, (perfDrawdown rows).getD i PF.nan = PF.fin q ∧ q ≤ 0) ∧
    NonIncrPF ((perfOutput rows).maxDrawdown) := by
  have hvpos : ∀ v ∈ (sortByTs rows).map Prod.snd, 0 < v := by
    intro v hv
    rcases List.mem_map.mp hv with ⟨r, hr, rfl⟩
    exact hpos r (mem_sortByTs.mp hr)
  have hppos : ∀ p ∈ perfPeak rows, 0 < p := expandingMax_pos _ hvpos
  constructor
  · intro i hi
    have hlen : (perfDrawdown rows).length =
        min ((sortByTs rows).map Prod.snd).length (perfPeak rows).length := by
      simp [perfDrawdown]
    have hiv : i < ((sortByTs rows).map Prod.snd).length := by
      rw [hlen] at hi
      exact lt_of_lt_of_le hi (min_le_left _ _)
    have hip : i < (perfPeak rows).length := by
      rw [hlen] at hi
      exact lt_of_lt_of_le hi (min_le_right _ _)
    have hz := zipWith_getD (fun v p => pdDivQ (v - p) p)
      ((sortByTs rows).map Prod.snd) (perfPeak rows) 0 0 PF.nan i hiv hip
    have hp : 0 < (perfPeak rows).getD i 0 :=
      hppos _ (getD_mem_of_lt _ 0 i hip)
    have hvp : ((sortByTs rows).map Prod.snd).getD i 0 ≤
        (perfPeak rows).getD i 0 := expandingMax_ge _ i hiv
    refine ⟨(((sortByTs rows).map Prod.snd).getD i 0 -
      (perfPeak rows).getD i 0) / (perfPeak rows).getD i 0, ?_, ?_⟩
    · rw [show perfDrawdown rows = List.zipWith (fun v p => pdDivQ (v - p) p)
        ((sortByTs rows).map Prod.snd) (perfPeak rows) from rfl, hz]
      exact pdDivQ_of_ne_zero hp.ne'
    · exact div_nonpos_of_nonpos_of_nonneg (sub_nonpos.mpr hvp) hp.le
  · have hddfin : ∀ y ∈ perfDrawdown rows, y.isFin = true := by
      intro y hy
      rcases zipWith_mem _ _ _ y hy with ⟨v, p, _, hp2, rfl⟩
      have hpp : 0 < p := hppos p hp2
      rw [pdDivQ_of_ne_zero hpp.ne']
      rfl
    have h1 : ∀ y ∈ perfMaxDrawdown rows, y.isFin = true :=
      expandingMinPF_allfin _ hddfin
    have h2 : (perfOutput rows).maxDrawdown =
        sanitizeCol (perfMaxDrawdown rows) := rfl
    rw [h2, sanitizeCol_allfin h1]
    exact expandingMinPF_nonincr _ hddfin

/-- C2 counterexample: on the value series [−5, −10] (two rows, negative
values) the computed drawdown at the second row is (−10−(−5))/(−5) = 1 > 0,
so "every drawdown value is ≤ 0" fails for an arbitrary value series. -/
theorem drawdown_nonpos_cex :
    perfDrawdown [((0 : Int), (-5 : ℚ)), (1, -10)] = [PF.fin 0, PF.fin 1] ∧
    ¬ ((1 : ℚ) ≤ 0) :=
  ⟨by with_unfolding_all decide, by norm_num⟩

/-- Witness for C2 on the spec's scenario series. -/
theorem drawdown_nonpos_maxdd_nonincreasing_witness :
    (∀ r ∈ exRowsPos, 0 < r.2) ∧
    ((∀ i, i < (perfDrawdown exRowsPos).length →
      ∃ q : ℚ, (perfDrawdown exRowsPos).getD i PF.nan = PF.fin q ∧ q ≤ 0) ∧
    NonIncrPF ((perfOutput exRowsPos).maxDrawdown)) :=
  ⟨by with_unfolding_all decide,
    drawdown_nonpos_maxdd_nonincreasing exRowsPos (by with_unfolding_all decide)⟩

-- ### Lemmas about sorting of rationals and the linear percentile

theorem mem_insertQLe {a x : ℚ} {l : List ℚ} :
    a ∈ insertQLe x l ↔ a = x ∨ a ∈ l := by
  induction l with
  | nil => simp [insertQLe]
  | cons y ys ih =>
    by_cases h : x ≤ y
    · simp [insertQLe, h]
    · simp [insertQLe, h, ih]
      tauto

theorem mem_sortQ {a : ℚ} {l : List ℚ} : a ∈ sortQ l ↔ a ∈ l := by
  induction l with
  | nil => simp [sortQ]
  | cons x xs ih =>
    simp only [sortQ, List.foldr_cons]
    rw [mem_insertQLe]
    simp [sortQ] at ih
    simp [ih]

theorem pairwise_insertQLe {x : ℚ} {l : List ℚ}
    (h : l.Pairwise (· ≤ ·)) : (insertQLe x l).Pairwise (· ≤ ·) := by
  induction l with
  | nil => simp [insertQLe]
  | cons y ys ih =>
    rcases List.pairwise_cons.mp h with ⟨hy, hys⟩
    by_cases hxy : x ≤ y
    · simp only [insertQLe, if_pos hxy]
      refine List.pairwise_cons.mpr ⟨?_, h⟩
      intro b hb
      rcases List.mem_cons.mp hb with rfl | hb
      · exact hxy
      · exact le_trans hxy (hy b hb)
    · have hyx : y ≤ x := le_of_not_le hxy
      simp only [insertQLe, if_neg hxy]
      refine List.pairwise_cons.mpr ⟨?_, ih hys⟩
      intro b hb
      rcases mem_insertQLe.mp hb with rfl | hb
      · exact hyx
      · exact hy b hb

theorem sortQ_pairwise (l : List ℚ) : (sortQ l).Pairwise (· ≤ ·) := by
  induction l with
  | nil => simp [sortQ]
  | cons x xs ih => exact pairwise_insertQLe ih

theorem insertQLe_length (x : ℚ) (l : List ℚ) :
    (insertQLe x l).length = l.length + 1 := by
  induction l with
  | nil => rfl
  | cons y ys ih =>
    by_cases h : x ≤ y
    · simp [insertQLe, h]
    · simp [insertQLe, h, ih]

theorem sortQ_length (l : List ℚ) : (sortQ l).length = l.length := by
  induction l with
  | nil => rfl
  | cons x xs ih =>
    simp only [sortQ, List.foldr_cons] at ih ⊢
    rw [insertQLe_length, ih, List.length_cons]

theorem sorted_getD_mono {l : List ℚ} (h : l.Pairwise (· ≤ ·)) (d : ℚ)
    {i j : Nat} (hij : i ≤ j) (hj : j < l.length) :
    l.getD i d ≤ l.getD j d := by
  rcases eq_or_lt_of_le hij with rfl | hlt
  · exact le_refl _
  · have hi : i < l.length := lt_trans hlt hj
    rw [List.getD_eq_getElem l d hi, List.getD_eq_getElem l d hj]
    have := List.pairwise_iff_get.mp h ⟨i, hi⟩ ⟨j, hj⟩ hlt
    simpa [List.get_eq_getElem] using this

/-- The 5th linear-interpolation percentile of a nonempty list is at least
its minimum, so the tail selection of `calculate_cvar` is never empty. -/
theorem quantileLin5_ge_min {l : List ℚ} (hne : l ≠ []) :
    ∃ x ∈ l, x ≤ quantileLin 5 l := by
  have hlen : (sortQ l).length = l.length := sortQ_length l
  have hn0 : (sortQ l).length ≠ 0 := by
    rw [hlen]
    exact fun h => hne (List.length_eq_zero.mp h)
  have hn1 : 1 ≤ (sortQ l).length := Nat.one_le_iff_ne_zero.mpr hn0
  have hsor := sortQ_pairwise l
  refine ⟨(sortQ l).getD 0 0, ?_, ?_⟩
  · exact mem_sortQ.mp (getD_mem_of_lt _ 0 0 (Nat.pos_of_ne_zero hn0))
  · simp only [quantileLin, if_neg hn0]
    have hnn : (0 : ℚ) ≤ ((sortQ l).length : ℚ) - 1 := by
      have : (1 : ℚ) ≤ ((sortQ l).length : ℚ) := by exact_mod_cast hn1
      linarith
    have hpos0 : (0 : ℚ) ≤ 5 / 100 * (((sortQ l).length : ℚ) - 1) := by
      positivity
    have hfl0 : (0 : ℤ) ≤ ⌊(5 : ℚ) / 100 * (((sortQ l).length : ℚ) - 1)⌋ :=
      Int.floor_nonneg.mpr hpos0
    have hcast :
        (((⌊(5 : ℚ) / 100 * (((sortQ l).length : ℚ) - 1)⌋).toNat : ℚ)) =
          ((⌊(5 : ℚ) / 100 * (((sortQ l).length : ℚ) - 1)⌋ : ℤ) : ℚ) := by
      exact_mod_cast congrArg (fun z => ((z : ℤ) : ℚ))
        (Int.toNat_of_nonneg hfl0)
    have hfrac : (0 : ℚ) ≤
        5 / 100 * (((sortQ l).length : ℚ) - 1) -
          ((⌊(5 : ℚ) / 100 * (((sortQ l).length : ℚ) - 1)⌋).toNat : ℚ) := by
      rw [hcast]
      have := Int.floor_le ((5 : ℚ) / 100 * (((sortQ l).length : ℚ) - 1))
      linarith
    have hle1 : (5 : ℚ) / 100 * (((sortQ l).length : ℚ) - 1) ≤
        ((sortQ l).length : ℚ) - 1 := by
      nlinarith
    have hlo_le : ⌊(5 : ℚ) / 100 * (((sortQ l).length : ℚ) - 1)⌋ ≤
        ((sortQ l).length : ℤ) - 1 := by
      have h2 : ((((sortQ l).length : ℤ) - 1 : ℤ) : ℚ) =
          ((sortQ l).length : ℚ) - 1 := by push_cast; ring
      refine Int.le_of_lt_add_one ?_
      have := Int.floor_le_floor hle1
      have h3 : ⌊((sortQ l).length : ℚ) - 1⌋ = ((sortQ l).length : ℤ) - 1 := by
        rw [show ((sortQ l).length : ℚ) - 1 = ((((sortQ l).length : ℤ) - 1 : ℤ) : ℚ)
          from by push_cast; ring]
        exact Int.floor_intCast _
      omega
    have hlo_lt : (⌊(5 : ℚ) / 100 * (((sortQ l).length : ℚ) - 1)⌋).toNat <
        (sortQ l).length := by
      omega
    have ha_le_b :
        (sortQ l).getD (⌊(5 : ℚ) / 100 * (((sortQ l).length : ℚ) - 1)⌋).toNat 0 ≤
        (sortQ l).getD
          ((⌊(5 : ℚ) / 100 * (((sortQ l).length : ℚ) - 1)⌋).toNat + 1)
          ((sortQ l).getD
            (⌊(5 : ℚ) / 100 * (((sortQ l).length : ℚ) - 1)⌋).toNat 0) := by
      by_cases hb : (⌊(5 : ℚ) / 100 * (((sortQ l).length : ℚ) - 1)⌋).toNat + 1 <
          (sortQ l).length
      · rw [List.getD_eq_getElem _ _ hb,
          List.getD_eq_getElem _ _ hlo_lt]
        have := sorted_getD_mono hsor 0
          (Nat.le_succ (⌊(5 : ℚ) / 100 * (((sortQ l).length : ℚ) - 1)⌋).toNat) hb
        rw [List.getD_eq_getElem _ _ hb, List.getD_eq_getElem _ _ hlo_lt] at this
        exact this
      · rw [List.getD_eq_default (sortQ l)
          ((sortQ l).getD
            (⌊(5 : ℚ) / 100 * (((sortQ l).length : ℚ) - 1)⌋).toNat 0)
          (Nat.le_of_not_lt hb)]
    have hmin :
        (sortQ l).getD 0 0 ≤
        (sortQ l).getD (⌊(5 : ℚ) / 100 * (((sortQ l).length : ℚ) - 1)⌋).toNat 0 :=
      sorted_getD_mono hsor 0 (Nat.zero_le _) hlo_lt
    nlinarith [mul_nonneg hfrac (sub_nonneg.mpr ha_le_b)]

theorem allFinList_length : ∀ {l : List (PF ℚ)} {vals : List ℚ},
    allFinList l = some vals → vals.length = l.length := by
  intro l
  induction l with
  | nil =>
    intro vals h
    simp [allFinList] at h
    simp [h.symm]
  | cons x xs ih =>
    intro vals h
    cases x with
    | fin q =>
      simp only [allFinList] at h
      rcases Option.map_eq_some'.mp h with ⟨l2, hl2, rfl⟩
      simp [ih hl2]
    | pinf => simp [allFinList] at h
    | ninf => simp [allFinList] at h
    | nan => simp [allFinList] at h

theorem allFinList_none_of_any : ∀ {l : List (PF ℚ)},
    l.any PF.isNan = true → allFinList l = none := by
  intro l
  induction l with
  | nil => intro h; simp at h
  | cons x xs ih =>
    intro h
    cases x with
    | fin q =>
      have : xs.any PF.isNan = true := by
        simpa [PF.isNan] using h
      simp [allFinList, ih this]
    | pinf => rfl
    | ninf => rfl
    | nan => rfl

theorem windowEnd_length {α : Type} (w : Nat) (xs : List α) (i : Nat)
    (hi : i < xs.length) (hw : w ≤ i + 1) :
    (windowEnd w xs i).length = w := by
  simp only [windowEnd, List.length_drop, List.length_take]
  omega

theorem rollingApplyQ_getD (w : Nat) (f : List ℚ → PF ℚ)
    (xs : List (PF ℚ)) (i : Nat) (hi : i < xs.length) :
    (rollingApplyQ w f xs).getD i PF.nan =
      if i + 1 < w then PF.nan
      else
        match allFinList (windowEnd w xs i) with
        | some vals => f vals
        | none => PF.nan := by
  have hlen : (rollingApplyQ w f xs).length = xs.length := by
    simp [rollingApplyQ]
  rw [List.getD_eq_getElem _ _ (by rw [hlen]; exact hi)]
  simp only [rollingApplyQ, List.getElem_map, List.getElem_range]

/-- C3 (amended: in the RETURNED risk frame the sub-30-sample CVaR cells
hold 0, placed there by the final `fillna(0)`; the column is null there only
before that fill). At a row with fewer than 30 trailing daily-return
samples the rolling CVaR is NaN before the output sanitisation and 0 in the
returned frame; at a row with a full window of 30 samples the returned
value is the mean of the window returns that lie at or below the window's
5th percentile. -/
theorem cvar_window_policy (rows : List (Int × ℚ)) :
    (∀ i, i < (riskDailyReturn rows).length →
      (i + 1 < 30 ∨
        (windowEnd 30 (riskDailyReturn rows) i).any PF.isNan = true) →
      (riskCvar rows).getD i PF.nan = PF.nan ∧
      ((riskOutput rows).cvar9530).getD i (PF.fin 0) = PF.fin 0) ∧
    (∀ i vals, i < (riskDailyReturn rows).length → 30 ≤ i + 1 →
      allFinList (windowEnd 30 (riskDailyReturn rows) i) = some vals →
      ((riskOutput rows).cvar9530).getD i (PF.fin 0) =
        PF.fin ((vals.filter (fun r => decide (r ≤ quantileLin 5 vals))).sum /
          ((vals.filter (fun r => decide (r ≤ quantileLin 5 vals))).length :
            ℚ))) := by
  constructor
  · intro i hi hcond
    have h1 : (riskCvar rows).getD i PF.nan = PF.nan := by
      show (rollingApplyQ 30 cvarFunc (riskDailyReturn rows)).getD i PF.nan =
        PF.nan
      rw [rollingApplyQ_getD 30 cvarFunc _ i hi]
      by_cases h30 : i + 1 < 30
      · rw [if_pos h30]
      · rw [if_neg h30]
        rcases hcond with h | h
        · exact absurd h h30
        · rw [allFinList_none_of_any h]
    refine ⟨h1, ?_⟩
    have h2 : (riskOutput rows).cvar9530 = sanitizeCol (riskCvar rows) := rfl
    rw [h2, sanitizeCol,
      getD_map_lt PF.sanitize (riskCvar rows) PF.nan (PF.fin 0) rfl i, h1]
    rfl
  · intro i vals hi h30 hfl
    have hcv : (riskCvar rows).getD i PF.nan = cvarFunc vals := by
      show (rollingApplyQ 30 cvarFunc (riskDailyReturn rows)).getD i PF.nan = _
      rw [rollingApplyQ_getD 30 cvarFunc _ i hi, if_neg (by omega), hfl]
    have hvlen : vals.length = 30 := by
      rw [allFinList_length hfl, windowEnd_length 30 _ i hi h30]
    have hne : vals ≠ [] := by
      intro h
      rw [h] at hvlen
      simp at hvlen
    obtain ⟨x, hx, hxle⟩ := quantileLin5_ge_min hne
    have htail :
        ¬ (vals.filter (fun r => decide (r ≤ quantileLin 5 vals))).length = 0 := by
      intro h0
      have h1 : vals.filter (fun r => decide (r ≤ quantileLin 5 vals)) = [] :=
        List.length_eq_zero.mp h0
      rw [List.filter_eq_nil] at h1
      exact h1 x hx (by simpa using hxle)
    have hcf : cvarFunc vals =
        PF.fin ((vals.filter (fun r => decide (r ≤ quantileLin 5 vals))).sum /
          ((vals.filter (fun r => decide (r ≤ quantileLin 5 vals))).length :
            ℚ)) := by
      unfold cvarFunc
      rw [if_neg (by omega), if_neg htail]
    have h2 : (riskOutput rows).cvar9530 = sanitizeCol (riskCvar rows) := rfl
    rw [h2, sanitizeCol,
      getD_map_lt PF.sanitize (riskCvar rows) PF.nan (PF.fin 0) rfl i, hcv,
      hcf]
    rfl

/-- C3 counterexample: on a three-row value series every row has fewer than
30 trailing samples, yet the returned risk frame carries the concrete value
0 (not a null) in its CVaR column. -/
theorem cvar_short_window_cex :
    (riskOutput [((0 : Int), (10 : ℚ)), (1, 11), (2, 12)]).cvar9530 =
      [PF.fin 0, PF.fin 0, PF.fin 0] := by
  with_unfolding_all decide

/-- Witness for C3: at row 30 of the 31-row example the returned CVaR cell
equals the tail mean of its window, which evaluates to 0. -/
theorem cvar_window_policy_witness :
    30 < (riskDailyReturn exRows31).length ∧
    allFinList (windowEnd 30 (riskDailyReturn exRows31) 30) =
      some (1 :: List.replicate 29 0) ∧
    ((riskOutput exRows31).cvar9530).getD 30 (PF.fin 0) = PF.fin 0 :=
  ⟨by with_unfolding_all decide, by with_unfolding_all decide,
    ((cvar_window_policy exRows31).2 30 (1 :: List.replicate 29 0)
        (by with_unfolding_all decide) (by omega)
        (by with_unfolding_all decide)).trans
      (by with_unfolding_all decide)⟩

theorem sanitizeCol_isFin {α : Type} [Zero α] (l : List (PF α)) :
    ∀ x ∈ sanitizeCol l, x.isFin = true := by
  intro x hx
  rcases List.mem_map.mp hx with ⟨y, _, rfl⟩
  cases y <;> rfl

theorem mem_pensionFinal {cf sn : List (Int × ℚ)} {r : PensionRow}
    (h : r ∈ pensionFinal cf sn) :
    ∃ t c iv, cashFAt cf (pensionTimeline cf sn) t = some c ∧
      imputedAt cf sn t = some iv ∧ r = mkPensionRow sn t c iv := by
  rcases List.mem_filterMap.mp h with ⟨t, htl, hm⟩
  cases hc : cashFAt cf (pensionTimeline cf sn) t with
  | none =>
    rw [hc] at hm
    cases hiv : imputedAt cf sn t <;> rw [hiv] at hm <;> cases hm
  | some c =>
    cases hiv : imputedAt cf sn t with
    | none =>
      rw [hc, hiv] at hm
      cases hm
    | some iv =>
      rw [hc, hiv] at hm
      injection hm with hm
      exact ⟨t, c, iv, hc, hiv, hm.symm⟩

theorem round2PF_smul_pdDivQ_notinf {a b : ℚ} (hb : b ≠ 0) :
    round2PF (PF.smulPos 100 (pdDivQ a b)) ≠ PF.pinf ∧
    round2PF (PF.smulPos 100 (pdDivQ a b)) ≠ PF.ninf := by
  rw [pdDivQ_of_ne_zero hb]
  constructor <;> simp [PF.smulPos, round2PF]

/-- C4 (amended). Every numeric value of the performance-metrics and
risk-metrics outputs is finite — the final `replace/fillna` maps each
infinity and NaN to 0 — and in the pension staging table the gain/loss
percentage columns are free of infinities at every row whose cumulative
cash invested is nonzero; the counterexample shows a zero-cash row does
produce an infinity there. -/
theorem core_output_no_infinity_amended :
    (∀ rows : List (Int × ℚ),
      PerfOutFinite (perfOutput rows) ∧ RiskOutFinite (riskOutput rows)) ∧
    (∀ cf sn : List (Int × ℚ), ∀ r ∈ pensionFinal cf sn, ∀ c : ℚ,
      r.cash = some c → c ≠ 0 →
      r.glp ≠ PF.pinf ∧ r.glp ≠ PF.ninf ∧
      r.iglp ≠ PF.pinf ∧ r.iglp ≠ PF.ninf) := by
  constructor
  · intro rows
    exact ⟨⟨sanitizeCol_isFin _, sanitizeCol_isFin _, sanitizeCol_isFin _,
        sanitizeCol_isFin _, sanitizeCol_isFin _, sanitizeCol_isFin _,
        sanitizeCol_isFin _, sanitizeCol_isFin _⟩,
      ⟨sanitizeCol_isFin _, sanitizeCol_isFin _, sanitizeCol_isFin _,
        sanitizeCol_isFin _, sanitizeCol_isFin _, sanitizeCol_isFin _,
        sanitizeCol_isFin _, sanitizeCol_isFin _⟩⟩
  · intro cf sn r hr c hcash hc0
    rcases mem_pensionFinal hr with ⟨t, c0, iv, hcf, hiv, rfl⟩
    have hc : c = round2 c0 := by
      have : (mkPensionRow sn t c0 iv).cash = some (round2 c0) := rfl
      rw [this] at hcash
      injection hcash with h
      exact h.symm
    have hc00 : c0 ≠ 0 := by
      intro h
      apply hc0
      rw [hc, h]
      with_unfolding_all decide
    refine ⟨?_, ?_, ?_, ?_⟩
    · show round2PF (PF.smulPos 100
        (pdDivOpt ((obsAt sn t).map (fun v => v - c0)) (some c0))) ≠ PF.pinf
      cases hobs : obsAt sn t with
      | none => simp [pdDivOpt, PF.smulPos, round2PF]
      | some v =>
        simp only [Option.map_some', pdDivOpt]
        exact (round2PF_smul_pdDivQ_notinf hc00).1
    · show round2PF (PF.smulPos 100
        (pdDivOpt ((obsAt sn t).map (fun v => v - c0)) (some c0))) ≠ PF.ninf
      cases hobs : obsAt sn t with
      | none => simp [pdDivOpt, PF.smulPos, round2PF]
      | some v =>
        simp only [Option.map_some', pdDivOpt]
        exact (round2PF_smul_pdDivQ_notinf hc00).2
    · exact (round2PF_smul_pdDivQ_notinf hc00).1
    · exact (round2PF_smul_pdDivQ_notinf hc00).2

/-- C4 counterexample: for contributions +100 at t=0 and −100 at t=1 with a
single valuation of 50 at t=0, the cumulative cash invested at t=1 is 0
while the carried-forward imputed value is 50, and the imputed gain/loss
percentage column of the final staging table holds positive infinity — an
infinity does reach a core output. -/
theorem core_output_no_infinity_cex :
    (pensionFinal [((0 : Int), (100 : ℚ)), (1, -100)]
        [((0 : Int), (50 : ℚ))]).map (fun r => r.iglp) =
      [PF.fin (-50), PF.pinf] := by
  with_unfolding_all decide

/-- Witness for C4: on the example streams the first staging row has cash
invested 1000 ≠ 0 and its imputed gain/loss percentage is not +∞. -/
theorem core_output_no_infinity_amended_witness :
    ((pensionFinal exCf1 exSn1).getD 0 pensionRow0).cash = some 1000 ∧
    (1000 : ℚ) ≠ 0 ∧
    ((pensionFinal exCf1 exSn1).getD 0 pensionRow0).iglp ≠ PF.pinf :=
  ⟨by with_unfolding_all decide, by norm_num,
    (core_output_no_infinity_amended.2 exCf1 exSn1
        ((pensionFinal exCf1 exSn1).getD 0 pensionRow0)
        (by with_unfolding_all decide) 1000
        (by with_unfolding_all decide) (by norm_num)).2.2.1⟩

theorem snapshotValue_foldl_acc (positions : List Position)
    (prices : List PriceRow) (d : Int) : ∀ acc : ℚ,
    positions.foldl (fun acc p =>
      match priceAt prices p.sym d with
      | some c => acc + p.quantity * c
      | none => acc) acc = acc + specValue positions prices d := by
  induction positions with
  | nil => intro acc; simp [specValue]
  | cons p ps ih =>
    intro acc
    simp only [List.foldl_cons, specValue, List.map_cons, List.sum_cons]
    cases hp : priceAt prices p.sym d with
    | none =>
      rw [ih acc]
      simp [specValue, hp]
    | some c =>
      rw [ih (acc + p.quantity * c)]
      simp only [specValue, hp, Option.getD_some]
      ring

theorem snapshotValue_eq_spec (positions : List Position)
    (prices : List PriceRow) (d : Int) :
    snapshotValue positions prices d = specValue positions prices d := by
  unfold snapshotValue
  rw [snapshotValue_foldl_acc]
  ring

/-- C5. For a positions list with pairwise-distinct asset symbols: empty
positions or an empty price history give an empty result; every emitted
snapshot carries the value Σ over assets of quantity × close at its
timestamp (0 for an asset without a price there), that value is strictly
positive, and its timestamp occurs in the price history; and every distinct
price-history timestamp with a strictly positive value yields an emitted
snapshot. -/
theorem snapshot_builder_value_policy (positions : List Position)
    (prices : List PriceRow)
    (hdist : positions.Pairwise (fun p q => p.sym ≠ q.sym)) :
    (positions = [] ∨ prices = [] →
      createPortfolioSnapshots positions prices = []) ∧
    (∀ s ∈ createPortfolioSnapshots positions prices,
      s.total = specValue positions prices s.dt ∧ 0 < s.total ∧
      s.dt ∈ prices.map (fun r => r.dt)) ∧
    (∀ d ∈ snapDates prices, 0 < specValue positions prices d →
      ∃ s ∈ createPortfolioSnapshots positions prices,
        s.dt = d ∧ s.total = specValue positions prices d) := by
  refine ⟨?_, ?_, ?_⟩
  · intro h
    rcases h with h | h <;>
      simp [createPortfolioSnapshots, h]
  · intro s hs
    unfold createPortfolioSnapshots at hs
    by_cases hemp : positions.isEmpty || prices.isEmpty
    · rw [if_pos hemp] at hs
      cases hs
    · rw [if_neg hemp] at hs
      rcases List.mem_filterMap.mp hs with ⟨d, hd, hm⟩
      by_cases hv : 0 < snapshotValue positions prices d
      · rw [if_pos hv] at hm
        injection hm with hm
        subst hm
        refine ⟨by simpa using (snapshotValue_eq_spec positions prices d), ?_, ?_⟩
        · simpa using hv
        · show d ∈ prices.map (fun r => r.dt)
          have : d ∈ prices.map (fun r => r.dt) := by
            have h1 := mem_dedupSorted.mp hd
            have h2 := mem_sortInts.mp h1
            exact h2
          exact this
      · rw [if_neg hv] at hm
        cases hm
  · intro d hd hpos
    have hval : 0 < snapshotValue positions prices d := by
      rw [snapshotValue_eq_spec]
      exact hpos
    have hpos_ne : positions ≠ [] := by
      intro h
      rw [h] at hpos
      simp [specValue] at hpos
    have hpr_ne : prices ≠ [] := by
      intro h
      rw [h] at hd
      simp [snapDates, sortInts, dedupSorted] at hd
    have hemp : ¬ (positions.isEmpty || prices.isEmpty) := by
      simp [List.isEmpty_iff, hpos_ne, hpr_ne]
    refine ⟨⟨d, snapshotValue positions prices d,
      ((snapshotAssetValues positions prices d).filter
        (fun kv => decide (0 < kv.2))).length⟩, ?_, rfl,
      snapshotValue_eq_spec positions prices d⟩
    unfold createPortfolioSnapshots
    rw [if_neg hemp]
    exact List.mem_filterMap.mpr ⟨d, hd, by rw [if_pos hval]⟩

/-- Witness for C5 on the spec's BTC scenario. -/
theorem snapshot_builder_value_policy_witness :
    exPositions.Pairwise (fun p q => p.sym ≠ q.sym) ∧
    ((exPositions = [] ∨ exPrices = [] →
      createPortfolioSnapshots exPositions exPrices = []) ∧
    (∀ s ∈ createPortfolioSnapshots exPositions exPrices,
      s.total = specValue exPositions exPrices s.dt ∧ 0 < s.total ∧
      s.dt ∈ exPrices.map (fun r => r.dt)) ∧
    (∀ d ∈ snapDates exPrices, 0 < specValue exPositions exPrices d →
      ∃ s ∈ createPortfolioSnapshots exPositions exPrices,
        s.dt = d ∧ s.total = specValue exPositions exPrices d)) :=
  ⟨by with_unfolding_all decide,
    snapshot_builder_value_policy exPositions exPrices
      (by with_unfolding_all decide)⟩

theorem sum_sq_le_sq_sum (l : List ℚ) (h : ∀ x ∈ l, 0 ≤ x) :
    (l.map (fun x => x ^ 2)).sum ≤ l.sum ^ 2 := by
  induction l with
  | nil => simp
  | cons x xs ih =>
    simp only [List.map_cons, List.sum_cons]
    have h1 : 0 ≤ x := h x (by simp)
    have h2 : 0 ≤ xs.sum :=
      List.sum_nonneg (fun y hy => h y (List.mem_cons_of_mem x hy))
    have h3 := ih (fun y hy => h y (List.mem_cons_of_mem x hy))
    nlinarith

theorem sum_map_div100 (pos : List PositionAlloc) :
    (pos.map (fun p => p.pct / 100)).sum =
      (pos.map (fun p => p.pct)).sum / 100 := by
  induction pos with
  | nil => simp
  | cons p ps ih =>
    simp only [List.map_cons, List.sum_cons, ih]
    ring

/-- C8 (amended: for positions with nonnegative percentages summing to
100). The portfolio total concentration Σ(allocation_pct/100)² lies in
(0, 1]; effective_assets equals exactly 1 divided by that sum (0 when the
sum is 0, per the source's guard); diversification_score equals 1 minus the
sum; and all three aggregates are broadcast unchanged onto every output
row. -/
theorem allocation_concentration_bounds (pos : List PositionAlloc)
    (hne : pos ≠ []) (hnonneg : ∀ p ∈ pos, 0 ≤ p.pct)
    (hsum : (pos.map (fun p => p.pct)).sum = 100) :
    (0 < totalConcentration pos ∧ totalConcentration pos ≤ 1) ∧
    effectiveAssets pos = 1 / totalConcentration pos ∧
    (∀ r ∈ calcAllocationAnalysis pos,
      r.portfolioConc = totalConcentration pos ∧
      r.effAssets = effectiveAssets pos ∧
      r.divScore = 1 - totalConcentration pos) := by
  have hpos : 0 < totalConcentration pos := by
    have hex : ∃ p ∈ pos, p.pct ≠ 0 := by
      by_contra hall
      push_neg at hall
      have : (pos.map (fun p => p.pct)).sum = 0 := by
        have : pos.map (fun p => p.pct) = pos.map (fun _ => (0 : ℚ)) :=
          List.map_congr_left (fun p hp => hall p hp)
        rw [this]
        simp
      rw [this] at hsum
      norm_num at hsum
    rcases hex with ⟨p, hp, hp0⟩
    have hterm : 0 < (p.pct / 100) ^ 2 := by
      have : p.pct / 100 ≠ 0 := by
        intro h
        exact hp0 (by field_simp at h; exact h)
      positivity
    have hmem : (p.pct / 100) ^ 2 ∈ pos.map (fun q => (q.pct / 100) ^ 2) :=
      List.mem_map.mpr ⟨p, hp, rfl⟩
    have hle : (p.pct / 100) ^ 2 ≤ totalConcentration pos :=
      List.single_le_sum
        (fun x hx => by
          rcases List.mem_map.mp hx with ⟨q, _, rfl⟩
          positivity) _ hmem
    exact lt_of_lt_of_le hterm hle
  have hle1 : totalConcentration pos ≤ 1 := by
    have h1 : totalConcentration pos =
        ((pos.map (fun p => p.pct / 100)).map (fun x => x ^ 2)).sum := by
      rw [List.map_map]
      rfl
    have h2 : (pos.map (fun p => p.pct / 100)).sum = 1 := by
      rw [sum_map_div100, hsum]
      norm_num
    have h3 : ∀ x ∈ pos.map (fun p => p.pct / 100), 0 ≤ x := by
      intro x hx
      rcases List.mem_map.mp hx with ⟨q, hq, rfl⟩
      have := hnonneg q hq
      positivity
    rw [h1]
    calc ((pos.map (fun p => p.pct / 100)).map (fun x => x ^ 2)).sum ≤
        (pos.map (fun p => p.pct / 100)).sum ^ 2 := sum_sq_le_sq_sum _ h3
      _ = 1 := by rw [h2]; norm_num
  refine ⟨⟨hpos, hle1⟩, ?_, ?_⟩
  · unfold effectiveAssets
    rw [if_pos hpos]
  · intro r hr
    rcases List.mem_map.mp hr with ⟨p, _, rfl⟩
    exact ⟨rfl, rfl, rfl⟩

/-- C8 counterexample: the one-position list with percentage_allocation 0
is non-empty, yet its total concentration is 0, outside the claimed
interval (0, 1]. -/
theorem allocation_concentration_cex :
    totalConcentration [(⟨"A", 0⟩ : PositionAlloc)] = 0 ∧
    ¬ (0 < totalConcentration [(⟨"A", 0⟩ : PositionAlloc)] ∧
      totalConcentration [(⟨"A", 0⟩ : PositionAlloc)] ≤ 1) := by
  have h : totalConcentration [(⟨"A", 0⟩ : PositionAlloc)] = 0 := by
    with_unfolding_all decide
  refine ⟨h, ?_⟩
  rintro ⟨h1, _⟩
  rw [h] at h1
  exact lt_irrefl 0 h1

/-- Witness for C8 on the 60/40 allocation. -/
theorem allocation_concentration_bounds_witness :
    (exAlloc ≠ [] ∧ (∀ p ∈ exAlloc, 0 ≤ p.pct) ∧
      (exAlloc.map (fun p => p.pct)).sum = 100) ∧
    ((0 < totalConcentration exAlloc ∧ totalConcentration exAlloc ≤ 1) ∧
    effectiveAssets exAlloc = 1 / totalConcentration exAlloc ∧
    (∀ r ∈ calcAllocationAnalysis exAlloc,
      r.portfolioConc = totalConcentration exAlloc ∧
      r.effAssets = effectiveAssets exAlloc ∧
      r.divScore = 1 - totalConcentration exAlloc)) :=
  ⟨⟨by with_unfolding_all decide, by with_unfolding_all decide,
      by with_unfolding_all decide⟩,
    allocation_concentration_bounds exAlloc (by with_unfolding_all decide)
      (by with_unfolding_all decide) (by with_unfolding_all decide)⟩

theorem convertDateCol_idem (f : Frame) :
    convertDateCol (convertDateCol f) = convertDateCol f := by
  cases f with
  | mk d v e =>
    simp only [convertDateCol, List.map_map]
    congr 1
    apply List.map_congr_left
    intro x _
    cases x <;> rfl

/-- C10. Each analyzer overwrites the date column of the caller's
portfolio_snapshots and pnl_tracking frames with its datetime-converted
value while leaving every other pre-existing column unchanged, and a second
analyzer invoked on the same objects receives the already-converted frames
(on which the repeated conversion is a no-op). -/
theorem analyzers_mutate_date_column (ps pnl : Frame) :
    ((calcPerformanceSt ps pnl).1.1.date = ps.date.map toDatetime ∧
      (calcPerformanceSt ps pnl).1.1.value = ps.value ∧
      (calcPerformanceSt ps pnl).1.1.extra = ps.extra) ∧
    ((calcPerformanceSt ps pnl).1.2.date = pnl.date.map toDatetime ∧
      (calcPerformanceSt ps pnl).1.2.value = pnl.value ∧
      (calcPerformanceSt ps pnl).1.2.extra = pnl.extra) ∧
    ((calcRiskSt ps pnl).1.1.date = ps.date.map toDatetime ∧
      (calcRiskSt ps pnl).1.1.value = ps.value ∧
      (calcRiskSt ps pnl).1.1.extra = ps.extra) ∧
    ((calcRiskSt ps pnl).1.2.date = pnl.date.map toDatetime ∧
      (calcRiskSt ps pnl).1.2.value = pnl.value ∧
      (calcRiskSt ps pnl).1.2.extra = pnl.extra) ∧
    (∀ d ∈ (calcPerformanceSt ps pnl).1.1.date, ∃ n, d = DVal.dt n) ∧
    (calcRiskSt (calcPerformanceSt ps pnl).1.1
        (calcPerformanceSt ps pnl).1.2).1 =
      ((calcPerformanceSt ps pnl).1.1, (calcPerformanceSt ps pnl).1.2) := by
  refine ⟨⟨rfl, rfl, rfl⟩, ⟨rfl, rfl, rfl⟩, ⟨rfl, rfl, rfl⟩,
    ⟨rfl, rfl, rfl⟩, ?_, ?_⟩
  · intro d hd
    rcases List.mem_map.mp hd with ⟨x, _, rfl⟩
    cases x with
    | raw n => exact ⟨n, rfl⟩
    | dt n => exact ⟨n, rfl⟩
  · show (convertDateCol (convertDateCol ps), convertDateCol (convertDateCol pnl)) =
      (convertDateCol ps, convertDateCol pnl)
    rw [convertDateCol_idem, convertDateCol_idem]

/-- C6. With fewer than 2 distinct assets or fewer than 2 aligned return
rows (the empty input included), the correlation analyzer returns the
explicit insufficient-data record: average correlation 0, diversification
score 0, empty matrix, and one of the three human-readable reason strings;
the embedded function is total, so no exception is raised. -/
theorem correlation_insufficient_data (ps : List CorrPriceRec)
    (h : (corrAssets ps).length < 2 ∨ (keptRows ps).length < 2) :
    (calcCorrelationMetrics ps).avgCorr = some 0 ∧
    (calcCorrelationMetrics ps).divScore = some 0 ∧
    (calcCorrelationMetrics ps).matrix = [] ∧
    ((calcCorrelationMetrics ps).notes = "No price data available" ∨
      (calcCorrelationMetrics ps).notes =
        "Only " ++ toString (corrAssets ps).length ++
          " asset(s) available" ∨
      (calcCorrelationMetrics ps).notes = "Insufficient return data") := by
  unfold calcCorrelationMetrics
  by_cases h0 : ps.length = 0
  · rw [if_pos h0]
    exact ⟨rfl, rfl, rfl, Or.inl rfl⟩
  · rw [if_neg h0]
    by_cases h1 : (corrAssets ps).length < 2
    · rw [if_pos h1]
      exact ⟨rfl, rfl, rfl, Or.inr (Or.inl rfl)⟩
    · rw [if_neg h1]
      have h2 : (keptRows ps).length < 2 := by tauto
      rw [if_pos h2]
      exact ⟨rfl, rfl, rfl, Or.inr (Or.inr rfl)⟩

/-- Witness for C6 on the single-asset history. -/
theorem correlation_insufficient_data_witness :
    (corrAssets exCorrOne).length < 2 ∧
    ((calcCorrelationMetrics exCorrOne).avgCorr = some 0 ∧
    (calcCorrelationMetrics exCorrOne).divScore = some 0 ∧
    (calcCorrelationMetrics exCorrOne).matrix = [] ∧
    ((calcCorrelationMetrics exCorrOne).notes = "No price data available" ∨
      (calcCorrelationMetrics exCorrOne).notes =
        "Only " ++ toString (corrAssets exCorrOne).length ++
          " asset(s) available" ∨
      (calcCorrelationMetrics exCorrOne).notes =
        "Insufficient return data")) :=
  ⟨by with_unfolding_all decide,
    correlation_insufficient_data exCorrOne
      (Or.inl (by with_unfolding_all decide))⟩

theorem zipWith_demean_comm (mx my : ℚ) : ∀ (xs ys : List ℚ),
    (List.zipWith (fun a b => (a - mx) * (b - my)) xs ys).sum =
    (List.zipWith (fun a b => (a - my) * (b - mx)) ys xs).sum := by
  intro xs
  induction xs with
  | nil => intro ys; cases ys <;> simp
  | cons x xs ih =>
    intro ys
    cases ys with
    | nil => simp
    | cons y ys =>
      simp only [List.zipWith_cons_cons, List.sum_cons, ih ys]
      ring

theorem demeanedDot_comm (xs ys : List ℚ) :
    demeanedDot xs ys = demeanedDot ys xs := by
  unfold demeanedDot
  exact zipWith_demean_comm (meanQ xs) (meanQ ys) xs ys

theorem zipWith_self_sq_nonneg (m : ℚ) : ∀ (l : List ℚ),
    0 ≤ (List.zipWith (fun a b => (a - m) * (b - m)) l l).sum := by
  intro l
  induction l with
  | nil => simp
  | cons x xs ih =>
    simp only [List.zipWith_cons_cons, List.sum_cons]
    have := mul_self_nonneg (x - m)
    linarith

theorem demeanedDot_self_nonneg (xs : List ℚ) : 0 ≤ demeanedDot xs xs := by
  unfold demeanedDot
  exact zipWith_self_sq_nonneg (meanQ xs) xs

theorem allFinList_eq_val {l : List (PF ℚ)}
    (h : ∀ x ∈ l, x.isFin = true) : allFinList l = some (l.map PF.val) := by
  induction l with
  | nil => rfl
  | cons x xs ih =>
    obtain ⟨a, rfl⟩ := isFin_exists (h x (by simp))
    have hxs : ∀ z ∈ xs, z.isFin = true :=
      fun z hz => h z (List.mem_cons_of_mem _ hz)
    simp only [allFinList, ih hxs, Option.map_some', List.map_cons]
    rfl

theorem keptRow_length {ps : List CorrPriceRec} {row : List (PF ℚ)}
    (h : row ∈ keptRows ps) : row.length = (corrAssets ps).length := by
  have h1 : row ∈ retRowsAll ps := List.mem_of_mem_filter h
  rcases List.mem_map.mp h1 with ⟨dp, _, rfl⟩
  simp

theorem corrValueR_symm (xs ys : List ℚ) :
    corrValueR xs ys = corrValueR ys xs := by
  unfold corrValueR
  rw [demeanedDot_comm xs ys, mul_comm]

theorem corrValueR_self {xs : List ℚ} (h : demeanedDot xs xs ≠ 0) :
    corrValueR xs xs = 1 := by
  unfold corrValueR
  rw [Real.mul_self_sqrt (by exact_mod_cast demeanedDot_self_nonneg xs)]
  rw [div_self]
  exact_mod_cast h

theorem getD_range_map {α : Type} (n : Nat) (f : Nat → α) (d : α) (i : Nat)
    (hi : i < n) : ((List.range n).map f).getD i d = f i := by
  rw [List.getD_eq_getElem _ _ (by simpa using hi)]
  simp [List.getElem_map, List.getElem_range]

theorem corrMatrix_entry (ps : List CorrPriceRec) (i j : Nat)
    (hi : i < (corrAssets ps).length) (hj : j < (corrAssets ps).length) :
    ((corrMatrix ps).getD i []).getD j none =
      corrEntry (retCol ps i) (retCol ps j) := by
  unfold corrMatrix
  rw [getD_range_map _ _ _ i hi, getD_range_map _ _ _ j hj]

/-- C7 (amended: additionally requiring every kept return cell finite and
every asset's return column non-constant; a constant column makes its
diagonal entry NaN, see the counterexample). Under these conditions the
computed matrix is symmetric with unit diagonal, the average correlation is
the mean of the strict upper triangle, and the diversification score is one
minus its absolute value. -/
theorem correlation_matrix_properties (ps : List CorrPriceRec)
    (h2a : 2 ≤ (corrAssets ps).length) (h2r : 2 ≤ (keptRows ps).length)
    (hfin : ∀ row ∈ keptRows ps, ∀ x ∈ row, x.isFin = true)
    (hvar : ∀ j, j < (corrAssets ps).length →
      demeanedDot (retColQ ps j) (retColQ ps j) ≠ 0) :
    (∀ i j, i < (corrAssets ps).length → j < (corrAssets ps).length →
      (((calcCorrelationMetrics ps).matrix.getD i []).getD j none) =
        (((calcCorrelationMetrics ps).matrix.getD j []).getD i none)) ∧
    (∀ j, j < (corrAssets ps).length →
      (((calcCorrelationMetrics ps).matrix.getD j []).getD j none) =
        some 1) ∧
    (calcCorrelationMetrics ps).avgCorr =
      some ((upperVals ps).sum / ((upperVals ps).length : ℝ)) ∧
    (calcCorrelationMetrics ps).divScore =
      some (1 - |(upperVals ps).sum / ((upperVals ps).length : ℝ)|) := by
  have hps0 : ¬ ps.length = 0 := by
    intro h
    have hnil : ps = [] := List.length_eq_zero.mp h
    rw [hnil] at h2a
    simp [corrAssets, sortInts, dedupSorted] at h2a
  have hA : ¬ (corrAssets ps).length < 2 := by omega
  have hR : ¬ (keptRows ps).length < 2 := by omega
  have hM : (calcCorrelationMetrics ps).matrix = corrMatrix ps := by
    unfold calcCorrelationMetrics
    rw [if_neg hps0, if_neg hA, if_neg hR]
  have hAvg : (calcCorrelationMetrics ps).avgCorr = avgCorrelation ps := by
    unfold calcCorrelationMetrics
    rw [if_neg hps0, if_neg hA, if_neg hR]
  have hDiv : (calcCorrelationMetrics ps).divScore =
      (avgCorrelation ps).map (fun a => 1 - |a|) := by
    unfold calcCorrelationMetrics
    rw [if_neg hps0, if_neg hA, if_neg hR]
  have hcolfin : ∀ j, j < (corrAssets ps).length →
      ∀ x ∈ retCol ps j, x.isFin = true := by
    intro j hj x hx
    rcases List.mem_map.mp hx with ⟨row, hrow, rfl⟩
    have hlenr : row.length = (corrAssets ps).length := keptRow_length hrow
    exact hfin row hrow _ (getD_mem_of_lt _ _ j (by rw [hlenr]; exact hj))
  have hAF : ∀ j, j < (corrAssets ps).length →
      allFinList (retCol ps j) = some (retColQ ps j) :=
    fun j hj => allFinList_eq_val (hcolfin j hj)
  have hEntry : ∀ i j, i < (corrAssets ps).length →
      j < (corrAssets ps).length →
      corrEntry (retCol ps i) (retCol ps j) =
        some (corrValueR (retColQ ps i) (retColQ ps j)) := by
    intro i j hi hj
    unfold corrEntry
    rw [hAF i hi, hAF j hj]
    show corrEntryQ (retColQ ps i) (retColQ ps j) = _
    unfold corrEntryQ
    rw [if_neg (by push_neg; exact ⟨hvar i hi, hvar j hj⟩)]
  have hUV : upperEntries ps = upperVals ps := by
    unfold upperEntries upperVals
    congr 1
    apply List.map_congr_left
    intro i hi
    apply List.filterMap_congr
    intro j hj
    by_cases hij : i < j
    · rw [if_pos hij, if_pos hij,
        hEntry i j (List.mem_range.mp hi) (List.mem_range.mp hj)]
    · rw [if_neg hij, if_neg hij]
  have hmem01 : corrValueR (retColQ ps 0) (retColQ ps 1) ∈ upperVals ps := by
    unfold upperVals
    apply List.mem_join.mpr
    refine ⟨(List.range (corrAssets ps).length).filterMap (fun j =>
      if 0 < j then some (corrValueR (retColQ ps 0) (retColQ ps j))
      else none), ?_, ?_⟩
    · exact List.mem_map.mpr ⟨0, List.mem_range.mpr (by omega), rfl⟩
    · exact List.mem_filterMap.mpr
        ⟨1, List.mem_range.mpr (by omega), by rw [if_pos (by omega)]⟩
  have hne : (upperVals ps).length ≠ 0 := by
    intro h
    have : upperVals ps = [] := List.length_eq_zero.mp h
    rw [this] at hmem01
    cases hmem01
  have hAvgVal : avgCorrelation ps =
      some ((upperVals ps).sum / ((upperVals ps).length : ℝ)) := by
    unfold avgCorrelation
    rw [hUV, if_neg hne]
  refine ⟨?_, ?_, ?_, ?_⟩
  · intro i j hi hj
    rw [hM, corrMatrix_entry ps i j hi hj, corrMatrix_entry ps j i hj hi,
      hEntry i j hi hj, hEntry j i hj hi, corrValueR_symm]
  · intro j hj
    rw [hM, corrMatrix_entry ps j j hj hj, hEntry j j hj hj,
      corrValueR_self (hvar j hj)]
  · rw [hAvg, hAvgVal]
  · rw [hDiv, hAvgVal]
    rfl

/-- C7 counterexample: the constant-price asset has a zero-variance return
column, so with 2 assets and 2 aligned return rows the diagonal entry of
the computed matrix for that asset is NaN (`none`), not 1. -/
theorem correlation_diag_cex :
    2 ≤ (corrAssets exCorrConst).length ∧
    2 ≤ (keptRows exCorrConst).length ∧
    (((calcCorrelationMetrics exCorrConst).matrix.getD 0 []).getD 0 none) =
      none := by
  refine ⟨by with_unfolding_all decide, by with_unfolding_all decide, ?_⟩
  have hM : (calcCorrelationMetrics exCorrConst).matrix =
      corrMatrix exCorrConst := by
    unfold calcCorrelationMetrics
    rw [if_neg (by with_unfolding_all decide),
      if_neg (by with_unfolding_all decide),
      if_neg (by with_unfolding_all decide)]
  rw [hM, corrMatrix_entry exCorrConst 0 0 (by with_unfolding_all decide)
    (by with_unfolding_all decide)]
  unfold corrEntry
  rw [show allFinList (retCol exCorrConst 0) = some [0, 0] from by
    with_unfolding_all decide]
  show corrEntryQ [0, 0] [0, 0] = none
  unfold corrEntryQ
  rw [if_pos (Or.inl (by with_unfolding_all decide))]

/-- Witness for C7 on the two-asset example with non-degenerate columns. -/
theorem correlation_matrix_properties_witness :
    (2 ≤ (corrAssets exCorrTwo).length ∧ 2 ≤ (keptRows exCorrTwo).length ∧
      (∀ row ∈ keptRows exCorrTwo, ∀ x ∈ row, x.isFin = true) ∧
      (∀ j, j < (corrAssets exCorrTwo).length →
        demeanedDot (retColQ exCorrTwo j) (retColQ exCorrTwo j) ≠ 0)) ∧
    ((∀ i j, i < (corrAssets exCorrTwo).length →
      j < (corrAssets exCorrTwo).length →
      (((calcCorrelationMetrics exCorrTwo).matrix.getD i []).getD j none) =
        (((calcCorrelationMetrics exCorrTwo).matrix.getD j []).getD i
          none)) ∧
    (∀ j, j < (corrAssets exCorrTwo).length →
      (((calcCorrelationMetrics exCorrTwo).matrix.getD j []).getD j none) =
        some 1) ∧
    (calcCorrelationMetrics exCorrTwo).avgCorr =
      some ((upperVals exCorrTwo).sum / ((upperVals exCorrTwo).length : ℝ)) ∧
    (calcCorrelationMetrics exCorrTwo).divScore =
      some (1 -
        |(upperVals exCorrTwo).sum / ((upperVals exCorrTwo).length : ℝ)|)) :=
  ⟨⟨by with_unfolding_all decide, by with_unfolding_all decide,
      by with_unfolding_all decide, by with_unfolding_all decide⟩,
    correlation_matrix_properties exCorrTwo
      (by with_unfolding_all decide) (by with_unfolding_all decide)
      (by with_unfolding_all decide) (by with_unfolding_all decide)⟩
